import Mathlib

/-!
Shallow embedding of the pair-matching engine of `copairs` (file
`src/copairs/matching.py`) together with proofs about the claims of its
specification.  Data frames are modelled as lists of rows of optional
integers (`none` models a null cell), python sets of small non-negative
integers are modelled as strictly ascending lists (matching CPython's
iteration order for small ints), and the numpy random generator is
modelled as an abstract stream of rationals in `[0, 1)`.
-/

namespace Copairs

/-- Scalar value stored in a cell of the data frame. -/
abbrev Val := Int

/-- Cell of the data frame: `none` models a null entry (`pd.isna`). -/
abbrev Cell := Option Val

/-- Errors raised by the engine.  Each constructor corresponds to one
`raise` site (or one uncaught library exception) of `matching.py`. -/
inductive MErr where
  /-- `ValueError('... any should have more than one column')` -/
  | anyOfOne
  /-- `ValueError('sameby and diffby must be disjoint lists')` -/
  | notDisjoint
  /-- `ValueError('sameby, diffby: at least one column should be provided')` -/
  | noColumns
  /-- `ValueError('sameby, diffby: {missing} columns not in DataFrame')` -/
  | missingColumns
  /-- `UnpairedException` (internal control flow of the null sampler) -/
  | unpaired
  /-- `ValueError('Number of tries exhusted. Could not find a valid pair')` -/
  | triesExhausted
  /-- `TypeError` raised by `set.intersection(*[])` -/
  | typeError
  /-- numpy `IndexError`/`ValueError` on malformed array indexing or broadcasting -/
  | numpyError
  deriving DecidableEq, Repr

/-- The matcher state: the selected columns of the data frame
(`self.values` / `self.columns` after `reset_index`). -/
structure Matcher where
  values : List (List Cell)
  columns : List String
  deriving DecidableEq, Repr

/-- Number of rows; row identifiers are `0 .. nRows - 1`. -/
def nRows (m : Matcher) : Nat := m.values.length

/-- Position of a column name in the column list (`self.col_to_ix`). -/
def colIx (m : Matcher) (c : String) : Nat := m.columns.indexOf c

/-- Value of row `i` at column `c` (`self.values[i][col_to_ix[c]]`). -/
def cellAt (m : Matcher) (i : Nat) (c : String) : Cell :=
  (m.values.getD i []).getD (colIx m c) none

/-- The column as a series (`dframe[col]`). -/
def colCells (m : Matcher) (c : String) : List Cell :=
  m.values.map (fun r => r.getD (colIx m c) none)

/-- Insert a value into a strictly ascending list, dropping duplicates. -/
def insVal (x : Val) : List Val → List Val
  | [] => [x]
  | y :: ys => if x < y then x :: y :: ys else if x = y then y :: ys else y :: insVal x ys

/-- The distinct non-null values of a column in ascending order: the group
keys of `col.groupby(col)` (pandas groups with `sort=True` and drops nulls). -/
def keysOf (m : Matcher) (c : String) : List Val :=
  ((colCells m c).filterMap id).foldl (fun acc v => insVal v acc) []

/-- Row identifiers holding value `v` in column `c`, ascending
(one group of the reverse index). -/
def groupRows (m : Matcher) (c : String) (v : Val) : List Nat :=
  (List.range (nRows m)).filter (fun i => cellAt m i c == some v)

/-- The reverse index of a column (`reverse_index` + `.apply(set)`):
value → set of row identifiers, keys in pandas group order. -/
def reverseIndexM (m : Matcher) (c : String) : List (Val × List Nat) :=
  (keysOf m c).map (fun v => (v, groupRows m c v))

/-- Lookup of `mapper[val]` in the reverse index. -/
def lookupG (ri : List (Val × List Nat)) (v : Val) : List Nat :=
  match ri.find? (fun p => p.1 == v) with
  | some p => p.2
  | none => []

/-- Python set difference `a - b` on our list model of sets. -/
def listDiff (a b : List Nat) : List Nat := a.filter (fun x => decide (x ∉ b))

/-- Python set intersection `a & b` on our list model of sets. -/
def listInter (a b : List Nat) : List Nat := a.filter (fun x => decide (x ∈ b))

/-- Model of `Matcher._filter_diffby`.  The diffby-all loop removes, for
each non-null value of the probe row, the same-value group; the diffby-any
branch removes the intersection of the per-column same-value groups.
`set.intersection(*mapped)` with an empty `mapped` raises a `TypeError`. -/
def filterDiffby (m : Matcher) (idx : Nat) (dAll dAny : List String)
    (valid : List Nat) : Except MErr (List Nat) :=
  let valid := dAll.foldl (fun v c =>
    match cellAt m idx c with
    | none => v
    | some x => listDiff v (lookupG (reverseIndexM m c) x)) valid
  if dAny.isEmpty then .ok valid
  else
    let mapped := dAny.filterMap (fun c =>
      match cellAt m idx c with
      | none => none
      | some x => some (lookupG (reverseIndexM m c) x))
    match mapped with
    | [] => .error .typeError
    | g :: gs => .ok (listDiff valid (gs.foldl listInter g))

/-- Inner loop of `Matcher._get_all_pairs_single` for one value group:
iterating `id1` over the group set, the not-yet-processed remainder is the
candidate pool, which is then diffby-filtered. -/
def pairsFromRows (m : Matcher) (dAll dAny : List String) :
    List Nat → Except MErr (List (Nat × Nat))
  | [] => .ok []
  | id1 :: rest =>
    match filterDiffby m id1 dAll dAny rest with
    | .error e => .error e
    | .ok valid =>
      match pairsFromRows m dAll dAny rest with
      | .error e => .error e
      | .ok tail => .ok (valid.map (fun id2 => (id1, id2)) ++ tail)

/-- Outer loop of `Matcher._get_all_pairs_single` over the groups of the
sameby column's reverse index. -/
def singleEntries (m : Matcher) (dAll dAny : List String) :
    List (Val × List Nat) → Except MErr (List (Val × List (Nat × Nat)))
  | [] => .ok []
  | kv :: rest =>
    match pairsFromRows m dAll dAny kv.2 with
    | .error e => .error e
    | .ok ps =>
      match singleEntries m dAll dAny rest with
      | .error e => .error e
      | .ok tail => .ok ((kv.1, ps) :: tail)

/-- Model of `Matcher._get_all_pairs_single`: all valid pairs for a single
sameby column, keyed by group value; a key appears exactly when at least
one pair was appended for it (`dict.setdefault` + `append`). -/
def getAllPairsSingle (m : Matcher) (sameby : String) (dAll dAny : List String) :
    Except MErr (List (Val × List (Nat × Nat))) :=
  match singleEntries m dAll dAny (reverseIndexM m sameby) with
  | .error e => .error e
  | .ok entries => .ok (entries.filter (fun e => !e.2.isEmpty))

/-! ### Column selectivity order and sorting helpers -/

/-- Number of unordered pairs within a set of `n` elements, `math.comb(n, 2)`. -/
def comb2 (n : Nat) : Nat := n * (n - 1) / 2

/-- Selectivity of a column: potential same-value pairs it induces
(`mapper.apply(lambda x: comb(len(x), 2)).sum()`). -/
def nPairsCol (m : Matcher) (c : String) : Nat :=
  ((reverseIndexM m c).map (fun g => comb2 g.2.length)).sum

/-- Stable insertion of `x` into a list ascending by `key`: `x` goes after
existing elements with an equal key (python `sorted` is stable). -/
def insKeyed (key : α → Nat) (x : α) : List α → List α
  | [] => [x]
  | y :: ys => if key x < key y then x :: y :: ys else y :: insKeyed key x ys

/-- Stable sort by a numeric key (model of python `sorted(..., key=...)`). -/
def sortKeyed (key : α → Nat) (l : List α) : List α :=
  l.foldl (fun acc x => insKeyed key x acc) []

/-- The columns ordered ascending by selectivity (`col_order`), ties broken
by the original column order (python sort stability over dict order). -/
def colOrderList (m : Matcher) : List String :=
  sortKeyed (nPairsCol m) m.columns

/-- Rank of a column in the selectivity order (`self.col_order[column]`). -/
def colRank (m : Matcher) (c : String) : Nat :=
  (colOrderList m).indexOf c

/-! ### Pair-level utilities -/

/-- Lexicographic strict order on pairs (row order used by `np.unique`). -/
def pairLtB (p q : Nat × Nat) : Bool :=
  p.1 < q.1 || (p.1 == q.1 && p.2 < q.2)

/-- Insert a pair into a lexicographically ascending duplicate-free list. -/
def insPair (p : Nat × Nat) : List (Nat × Nat) → List (Nat × Nat)
  | [] => [p]
  | q :: qs => if pairLtB p q then p :: q :: qs else if p = q then q :: qs else q :: insPair p qs

/-- Model of `np.unique(pairs, axis=0)`: sort rows lexicographically and
drop duplicate rows. -/
def sortDedupPairs (l : List (Nat × Nat)) : List (Nat × Nat) :=
  l.foldl (fun acc p => insPair p acc) []

/-- Model of `itertools.combinations(xs, 2)` in iteration order. -/
def combos2 : List α → List (α × α)
  | [] => []
  | x :: xs => xs.map (fun y => (x, y)) ++ combos2 xs

/-- Model of `Matcher._get_full_pairs`: the cross pairs between every
unordered pair of distinct value groups of a reverse index. -/
def getFullPairs (ri : List (Val × List Nat)) : List (Nat × Nat) :=
  (combos2 ri).flatMap (fun gg => gg.1.2.flatMap (fun a => gg.2.2.map (fun b => (a, b))))

/-- Conditions accepted by `Matcher._filter_pairs_by_condition`. -/
inductive Cond where
  | allSame | allDiff | anySame | anyDiff
  deriving DecidableEq, Repr

/-- Does a candidate pair satisfy the given condition on the given columns?
Numpy `==` on object cells compares python objects, so two nulls compare
equal; `!=` is its elementwise negation. -/
def condHolds (m : Matcher) (cols : List String) (cond : Cond) (p : Nat × Nat) : Bool :=
  match cond with
  | .allSame => cols.all (fun c => cellAt m p.1 c == cellAt m p.2 c)
  | .allDiff => cols.all (fun c => !(cellAt m p.1 c == cellAt m p.2 c))
  | .anySame => cols.any (fun c => cellAt m p.1 c == cellAt m p.2 c)
  | .anyDiff => cols.any (fun c => !(cellAt m p.1 c == cellAt m p.2 c))

/-- Model of `Matcher._filter_pairs_by_condition`.  Indexing
`self.values[pairs[:, 0]]` on an empty 1-D array raises an `IndexError`. -/
def filterPairsByCondition (m : Matcher) (pairs : List (Nat × Nat))
    (cols : List String) (cond : Cond) : Except MErr (List (Nat × Nat)) :=
  if pairs.isEmpty then .error .numpyError
  else .ok (pairs.filter (condHolds m cols cond))

/-! ### The dictionary-valued result of `get_all_pairs` -/

/-- Key of the returned pair dictionary: `None`, a scalar group value, or a
composed key (values listed in the caller's sameby column order). -/
inductive PKey where
  | na
  | v (x : Val)
  | comp (vs : List Cell)
  deriving DecidableEq, Repr

/-- The returned dictionary, modelled as an association list in python
dict insertion order. -/
abbrev Pairs := List (PKey × List (Nat × Nat))

/-- Model of `Matcher._only_diffby_all`. -/
def onlyDiffbyAll (m : Matcher) (dAll : List String) : Except MErr Pairs :=
  let srt := sortKeyed (colRank m) dAll
  let pairs := getFullPairs (reverseIndexM m (srt.headD ""))
  match (if 1 < srt.length
         then filterPairsByCondition m pairs srt.tail .allDiff
         else .ok pairs) with
  | .error e => .error e
  | .ok ps => .ok [(PKey.na, sortDedupPairs ps)]

/-- Model of `Matcher._only_diffby_any`: union of the per-column full cross
pairs, each pair put in ascending order (`np.sort` along the last axis)
before deduplication. -/
def onlyDiffbyAny (m : Matcher) (dAny : List String) : Except MErr Pairs :=
  let srt := sortKeyed (colRank m) dAny
  let pairs := srt.flatMap (fun c => getFullPairs (reverseIndexM m c))
  .ok [(PKey.na, sortDedupPairs (pairs.map (fun p => (min p.1 p.2, max p.1 p.2))))]

/-- Model of `Matcher._only_diffby_all_any`: the diffby-all result filtered
by "differs on at least one diffby-any column". -/
def onlyDiffbyAllAny (m : Matcher) (dAll dAny : List String) : Except MErr Pairs :=
  match onlyDiffbyAll m dAll with
  | .error e => .error e
  | .ok res =>
    match filterPairsByCondition m ((res.headD (PKey.na, [])).2) dAny .anyDiff with
    | .error e => .error e
    | .ok fp => .ok [(PKey.na, fp)]

/-! ### Composite sameby keys -/

/-- Composite key for a pair found under group value `k` of the seed column
`c0`: the caller's sameby columns in their original order, each mapped to
its value (`ComposedKey(**dict(zip(sameby_all, vals)))`). -/
def compKeyFor (m : Matcher) (orig : List String) (c0 : String) (k : Val) (id1 : Nat) : PKey :=
  .comp (orig.map (fun c => if c = c0 then some k else cellAt m id1 c))

/-- Append a pair to the list stored under a key, creating the key at the
end on first use (`dict.setdefault(key, list()).append(pair)`). -/
def assocAppend : Pairs → PKey → (Nat × Nat) → Pairs
  | [], k, pr => [(k, [pr])]
  | kv :: rest, k, pr =>
    if kv.1 = k then (kv.1, kv.2 ++ [pr]) :: rest else kv :: assocAppend rest k pr

/-- The equality test of the multi-sameby re-keying loop
(`np.all(row1[col_ix] == row2[col_ix])`). -/
def restEq (m : Matcher) (rcols : List String) (pr : Nat × Nat) : Bool :=
  rcols.all (fun c => cellAt m pr.1 c == cellAt m pr.2 c)

/-- One step of the multi-sameby re-keying loop: keep the candidate pair if
the two rows agree on all remaining sameby columns. -/
def composeStep (m : Matcher) (orig : List String) (c0 : String) (restCols : List String)
    (acc : Pairs) (k : Val) (pr : Nat × Nat) : Pairs :=
  if restEq m restCols pr
  then assocAppend acc (compKeyFor m orig c0 k pr.1) pr
  else acc

/-- The multi-sameby re-keying loop over all candidate pairs. -/
def composePairs (m : Matcher) (orig : List String) (c0 : String) (restCols : List String)
    (cand : List (Val × List (Nat × Nat))) : Pairs :=
  cand.foldl (fun acc kv =>
    kv.2.foldl (fun acc2 pr => composeStep m orig c0 restCols acc2 kv.1 pr) acc) []

/-- The sameby-all part of `get_all_pairs` (the `if sameby_all:` block):
empty, single-column, or multi-column with re-keying. -/
def samebyBase (m : Matcher) (sAll dAll dAny : List String) : Except MErr Pairs :=
  if sAll.isEmpty then .ok []
  else if sAll.length = 1 then
    match getAllPairsSingle m (sAll.headD "") dAll dAny with
    | .error e => .error e
    | .ok entries => .ok (entries.map (fun kv => (PKey.v kv.1, kv.2)))
  else
    match getAllPairsSingle m ((sortKeyed (colRank m) sAll).headD "") dAll dAny with
    | .error e => .error e
    | .ok cand => .ok (composePairs m sAll ((sortKeyed (colRank m) sAll).headD "")
        (sortKeyed (colRank m) sAll).tail cand)

/-! ### The sameby-any handling -/

/-- Model of numpy's `item in array` for a 2-column integer array: it is
`(array == item).any()`, with broadcasting over the leading axis; shapes
that do not broadcast raise a `ValueError`. -/
def npContains (arr : List (Nat × Nat)) (v : List (Nat × Nat)) : Except MErr Bool :=
  if v.length = arr.length then
    .ok ((arr.zip v).any (fun pq => pq.1.1 == pq.2.1 || pq.1.2 == pq.2.2))
  else if v.length = 1 then
    .ok (arr.any (fun p => p.1 == (v.headD (0, 0)).1 || p.2 == (v.headD (0, 0)).2))
  else if arr.length = 1 then
    .ok (v.any (fun q => q.1 == (arr.headD (0, 0)).1 || q.2 == (arr.headD (0, 0)).2))
  else .error .numpyError

/-- The dict comprehension `{k: v for k, v in pairs.items() if v in pairs_any}`. -/
def keepKeys (fp : List (Nat × Nat)) : Pairs → Except MErr Pairs
  | [] => .ok []
  | kv :: rest =>
    match npContains fp kv.2 with
    | .error e => .error e
    | .ok b =>
      match keepKeys fp rest with
      | .error e => .error e
      | .ok tail => .ok (if b then kv :: tail else tail)

/-- Per-column single enumerations for the sameby-any union branch. -/
def anySingles (m : Matcher) (dAll dAny : List String) :
    List String → Except MErr (List (List (Val × List (Nat × Nat))))
  | [] => .ok []
  | c :: rest =>
    match getAllPairsSingle m c dAll dAny with
    | .error e => .error e
    | .ok cr =>
      match anySingles m dAll dAny rest with
      | .error e => .error e
      | .ok tail => .ok (cr :: tail)

/-! ### Constraint specifications and the main entry point -/

/-- A sameby/diffby argument: a single column name, a list of columns, or a
`{all: [...], any: [...]}` mapping. -/
inductive ColSpec where
  | str (s : String)
  | list (l : List String)
  | dct (all any : List String)
  deriving DecidableEq, Repr

/-- Normalisation of one argument into `(all, any)` lists, rejecting an
"any" group with exactly one column. -/
def normSpec : ColSpec → Except MErr (List String × List String)
  | .str s => .ok ([s], [])
  | .list l => .ok (l, [])
  | .dct all any => if any.length = 1 then .error .anyOfOne else .ok (all, any)

/-- Model of `Matcher.get_all_pairs`: normalisation, validation (note that
the source intersects all four column sets at once), and dispatch over the
sameby/diffby cases. -/
def getAllPairs (m : Matcher) (sameby diffby : ColSpec) : Except MErr Pairs :=
  match normSpec sameby with
  | .error e => .error e
  | .ok (sAll, sAny) =>
    match normSpec diffby with
    | .error e => .error e
    | .ok (dAll, dAny) =>
      if sAll.any (fun c => decide (c ∈ sAny) && decide (c ∈ dAll) && decide (c ∈ dAny))
      then .error .notDisjoint
      else if sAll.isEmpty && sAny.isEmpty && dAll.isEmpty && dAny.isEmpty
      then .error .noColumns
      else if (sAll ++ sAny ++ dAll ++ dAny).any (fun c => !(m.columns.contains c))
      then .error .missingColumns
      else if sAll.isEmpty && sAny.isEmpty then
        if dAny.isEmpty then onlyDiffbyAll m dAll
        else if dAll.isEmpty then onlyDiffbyAny m dAny
        else onlyDiffbyAllAny m dAll dAny
      else
        match samebyBase m sAll dAll dAny with
        | .error e => .error e
        | .ok base =>
          if sAny.isEmpty then .ok base
          else if !base.isEmpty then
            match filterPairsByCondition m (base.map (fun kv => kv.2.headD (0, 0)))
                    sAny .anySame with
            | .error e => .error e
            | .ok fp => keepKeys fp base
          else
            match anySingles m dAll dAny sAny with
            | .error e => .error e
            | .ok colRes =>
              .ok [(PKey.na, sortDedupPairs
                (colRes.flatMap (fun cr => cr.map (fun kv => kv.2.headD (0, 0)))))]

/-! ### Deterministic random source with batched refill -/

/-- State of the batched random source: `pos` is the next index of the
underlying seeded uniform stream to be generated, `buf` the not yet
consumed part of the current batch (`self.rand_iter`).  A uniform value
`u ∈ [0, 1)` is represented exactly by its numerator over a fixed
denominator `den` (numpy float64 uniforms are dyadic rationals, so this
loses nothing). -/
structure RState where
  pos : Nat
  buf : List Nat
  deriving DecidableEq, Repr

/-- Fresh state right after `Matcher.__init__` (`self.rand_iter = iter([])`). -/
def initR : RState := ⟨0, []⟩

/-- Model of `Matcher.rand_next` with batch size `B`: take the next value
from the buffer, refilling it with the next `B` values of the seeded
stream `src` when exhausted.  The source uses `B = 10^6`. -/
def randNext (src : Nat → Nat) (B : Nat) (st : RState) : Nat × RState :=
  match st.buf with
  | x :: rest => (x, ⟨st.pos, rest⟩)
  | [] =>
    match (List.range B).map (fun i => src (st.pos + i)) with
    | [] => (0, st)
    | x :: rest => (x, ⟨st.pos + B, rest⟩)

/-- Python `int(u * count)` for the uniform value `u = num / den`:
`⌊(num / den) * count⌋ = num * count / den` in natural division. -/
def drawInt (num den count : Nat) : Nat := num * count / den

/-- Model of `Matcher._null_sample`: draw `id1` uniformly, remove it from
the pool, apply the diffby filter, and draw `id2` from the survivors.
An empty filtered pool raises the internal `UnpairedException`. -/
def nullSample (src : Nat → Nat) (den B : Nat) (m : Matcher) (dAll dAny : List String)
    (st : RState) : Except MErr (Nat × Nat) × RState :=
  let r1 := randNext src B st
  let id1 := drawInt r1.1 den (nRows m)
  let valid0 := (List.range (nRows m)).filter (fun i => decide (i ≠ id1))
  match filterDiffby m id1 dAll dAny valid0 with
  | .error e => (.error e, r1.2)
  | .ok valid =>
    if valid.isEmpty then (.error .unpaired, r1.2)
    else
      let r2 := randNext src B r1.2
      (.ok (id1, valid.getD (drawInt r2.1 den valid.length) 0), r2.2)

/-- The retry loop of `Matcher.sample_null_pair`: only the internal
`UnpairedException` is caught; after `n` failed attempts the terminal
`ValueError` is raised. -/
def sampleNullTries (src : Nat → Nat) (den B : Nat) (m : Matcher) (dAll dAny : List String) :
    Nat → RState → Except MErr (Nat × Nat) × RState
  | 0, st => (.error .triesExhausted, st)
  | Nat.succ k, st =>
    match nullSample src den B m dAll dAny st with
    | (.ok p, st') => (.ok p, st')
    | (.error .unpaired, st') => sampleNullTries src den B m dAll dAny k st'
    | (.error e, st') => (.error e, st')

/-- Model of `Matcher.sample_null_pair`: normalise the diffby argument and
run the bounded retry loop. -/
def sampleNullPair (src : Nat → Nat) (den B : Nat) (m : Matcher) (diffby : ColSpec)
    (nTries : Nat) (st : RState) : Except MErr (Nat × Nat) × RState :=
  match normSpec diffby with
  | .error e => (.error e, st)
  | .ok (dAll, dAny) => sampleNullTries src den B m dAll dAny nTries st

/-- A call made against one matcher instance. -/
inductive MCall where
  | sample (diffby : ColSpec) (nTries : Nat)
  | allPairs (sameby diffby : ColSpec)
  deriving DecidableEq, Repr

instance {ε α : Type} [DecidableEq ε] [DecidableEq α] : DecidableEq (Except ε α) := by
  intro a b
  cases a <;> cases b <;>
    first
      | · rename_i x y
          by_cases h : x = y
          · exact isTrue (by rw [h])
          · exact isFalse (by intro hc; cases hc; exact h rfl)
      | exact isFalse (by intro h; cases h)

/-- Result of one call. -/
inductive MOut where
  | pair (r : Except MErr (Nat × Nat))
  | pairDict (r : Except MErr Pairs)
  deriving DecidableEq, Repr

/-- Run a sequence of calls against one matcher instance, threading the
random state through the sampling calls. -/
def runSeq (src : Nat → Nat) (den B : Nat) (m : Matcher) :
    List MCall → RState → List MOut
  | [], _ => []
  | .sample diffby nTries :: rest, st =>
    let r := sampleNullPair src den B m diffby nTries st
    .pair r.1 :: runSeq src den B m rest r.2
  | .allPairs sameby diffby :: rest, st =>
    .pairDict (getAllPairs m sameby diffby) :: runSeq src den B m rest st

/-- State reached before attempt `i` of the retry loop when every earlier
attempt failed: each attempt advances the shared random state. -/
def triesStates (src : Nat → Nat) (den B : Nat) (m : Matcher)
    (dAll dAny : List String) (st : RState) : Nat → RState
  | 0 => st
  | i + 1 =>
    (nullSample src den B m dAll dAny (triesStates src den B m dAll dAny st i)).2

/-- Outcome of attempt `i` of the retry loop (when every earlier attempt
failed). -/
def tryRes (src : Nat → Nat) (den B : Nat) (m : Matcher)
    (dAll dAny : List String) (st : RState) (i : Nat) : Except MErr (Nat × Nat) :=
  (nullSample src den B m dAll dAny (triesStates src den B m dAll dAny st i)).1

/-- Batch-free reference sampler: the same draws as `_null_sample`, indexed
directly by the position in the seeded uniform stream. -/
def nullSampleA (src : Nat → Nat) (den : Nat) (m : Matcher) (dAll dAny : List String)
    (n : Nat) : Except MErr (Nat × Nat) × Nat :=
  let id1 := drawInt (src n) den (nRows m)
  let valid0 := (List.range (nRows m)).filter (fun i => decide (i ≠ id1))
  match filterDiffby m id1 dAll dAny valid0 with
  | .error e => (.error e, n + 1)
  | .ok valid =>
    if valid.isEmpty then (.error .unpaired, n + 1)
    else (.ok (id1, valid.getD (drawInt (src (n + 1)) den valid.length) 0), n + 2)

/-- Batch-free reference retry loop. -/
def sampleTriesA (src : Nat → Nat) (den : Nat) (m : Matcher) (dAll dAny : List String) :
    Nat → Nat → Except MErr (Nat × Nat) × Nat
  | 0, n => (.error .triesExhausted, n)
  | Nat.succ k, n =>
    match nullSampleA src den m dAll dAny n with
    | (.ok p, n') => (.ok p, n')
    | (.error .unpaired, n') => sampleTriesA src den m dAll dAny k n'
    | (.error e, n') => (.error e, n')

/-- Batch-free reference `sample_null_pair`. -/
def sampleNullPairA (src : Nat → Nat) (den : Nat) (m : Matcher) (diffby : ColSpec)
    (nTries : Nat) (n : Nat) : Except MErr (Nat × Nat) × Nat :=
  match normSpec diffby with
  | .error e => (.error e, n)
  | .ok (dAll, dAny) => sampleTriesA src den m dAll dAny nTries n

/-- Batch-free reference run of a call sequence. -/
def runSeqA (src : Nat → Nat) (den : Nat) (m : Matcher) :
    List MCall → Nat → List MOut
  | [], _ => []
  | .sample diffby nTries :: rest, n =>
    let r := sampleNullPairA src den m diffby nTries n
    .pair r.1 :: runSeqA src den m rest r.2
  | .allPairs sameby diffby :: rest, n =>
    .pairDict (getAllPairs m sameby diffby) :: runSeqA src den m rest n

/-! ### Group clipping at construction time -/

/-- Model of the `clip_list` closure in `Matcher.__init__`: when `max_size`
is set (non-zero) and the group is larger, the group is replaced by
`rng.choice(elems, max_size)`.  Numpy's `Generator.choice` without
`replace=False` draws each of the `max_size` elements independently and
uniformly (sampling WITH replacement); the `t`-th draw picks the index
`int(u_t * len(elems))` for the `t`-th uniform value `u_t = u t / den`. -/
def clipList (u : Nat → Nat) (den : Nat) (maxSize : Option Nat) (elems : List Nat) :
    List Nat :=
  match maxSize with
  | none => elems
  | some ms =>
    if ms ≠ 0 ∧ ms < elems.length then
      (List.range ms).map (fun t => elems.getD (drawInt (u t) den elems.length) 0)
    else elems

/-! ### The multilabel adapter -/

/-- Input of `MatcherMultilabel`: the selected columns, the designated
multi-valued column, the per-row cells for all selected columns (the entry
at the multilabel position is a placeholder), and the per-row label lists. -/
structure MLInput where
  cols : List String
  mlCol : String
  cells : List (List Cell)
  labels : List (List Val)
  deriving DecidableEq, Repr

/-- Number of original rows (`self.size = dframe.shape[0]`). -/
def MLInput.size (inp : MLInput) : Nat := inp.labels.length

/-- Position of the multilabel column among the selected columns. -/
def MLInput.mlIx (inp : MLInput) : Nat := inp.cols.indexOf inp.mlCol

/-- Rows produced by `dframe.explode` for one original row: one row per
label, each carrying the other cells unchanged; pandas turns an empty list
into a single row with a null cell. -/
def explodeRow (mlIx : Nat) (r : List Cell) : List Val → List (List Cell)
  | [] => [r.set mlIx none]
  | ls => ls.map (fun l => r.set mlIx (some l))

/-- Cells of the exploded frame. -/
def explodedValues (inp : MLInput) : List (List Cell) :=
  (inp.cells.zip inp.labels).flatMap (fun rl => explodeRow inp.mlIx rl.1 rl.2)

/-- Number of exploded rows an original row with the given labels yields. -/
def explCount : List Val → Nat
  | [] => 1
  | ls => ls.length

/-- Back-reference from each exploded row to its original row identifier
(`self.original_index`). -/
def origIndex (inp : MLInput) : List Nat :=
  ((List.range inp.size).zip inp.labels).flatMap
    (fun il => List.replicate (explCount il.2) il.1)

/-- The inner matcher built on the exploded frame. -/
def mlMatcher (inp : MLInput) : Matcher :=
  { values := explodedValues inp, columns := inp.cols }

/-- Label set of an original row (`self.multilabel_set`), as a list whose
membership is the set membership. -/
def labelsOf (inp : MLInput) (i : Nat) : List Val := inp.labels.getD i []

/-- Do two label sets intersect (`len(a & b) == 0` negated)? -/
def labelsOverlap (inp : MLInput) (i j : Nat) : Bool :=
  (labelsOf inp i).any (fun l => decide (l ∈ labelsOf inp j))

/-- Is a sameby argument falsy in python (`not sameby`)? -/
def samebyEmpty : ColSpec → Bool
  | .str s => s.isEmpty
  | .list l => l.isEmpty
  | .dct _ _ => false

/-- Map the per-key pair lists of the inner matcher back to original row
identifiers, post-filtering for disjoint label sets when the multilabel
column was a diffby target.  `np.asarray` of an empty list loses the pair
shape, so the index assignment raises on an empty value list. -/
def mlMapValues (inp : MLInput) (diffbyMulti : Bool) :
    Pairs → Except MErr Pairs
  | [] => .ok []
  | kv :: rest =>
    if kv.2.isEmpty then .error .numpyError
    else
      let mapped := kv.2.map (fun p =>
        ((origIndex inp).getD p.1 0, (origIndex inp).getD p.2 0))
      let mapped := if diffbyMulti
        then mapped.filter (fun p => !labelsOverlap inp p.1 p.2)
        else mapped
      match mlMapValues inp diffbyMulti rest with
      | .error e => .error e
      | .ok tail => .ok ((kv.1, mapped) :: tail)

/-- The general branch of `MatcherMultilabel.get_all_pairs`: run the inner
matcher on the exploded frame and map every emitted pair back. -/
def mlGeneral (inp : MLInput) (sameby : ColSpec) (diffby : List String)
    (diffbyMulti : Bool) : Except MErr Pairs :=
  match getAllPairs (mlMatcher inp) sameby (.list diffby) with
  | .error e => .error e
  | .ok prs => mlMapValues inp diffbyMulti prs

/-- Model of `MatcherMultilabel._only_diffby_multi`: complement, over all
unordered original-row pairs, of the pairs sharing at least one label.
Unordered pairs are encoded as `(min, max)` (the image of `frozenset`). -/
def mlOnlyDiffbyMulti (inp : MLInput) : Except MErr Pairs :=
  match mlGeneral inp (.str inp.mlCol) [] false with
  | .error e => .error e
  | .ok prs =>
    let pset := (prs.flatMap (fun kv => kv.2)).map (fun p => (min p.1 p.2, max p.1 p.2))
    .ok [(PKey.na, (combos2 (List.range inp.size)).filter (fun p => decide (p ∉ pset)))]

/-- The inner matcher's result for `sameby = multilabel_col`, `diffby = []`,
mapped back to original row identifiers (used by `_only_diffby_multi`). -/
def mlSingleResult (inp : MLInput) : Pairs :=
  (((reverseIndexM (mlMatcher inp) inp.mlCol).map (fun kv => (kv.1, combos2 kv.2))).filter
    (fun e => !e.2.isEmpty)).map
    (fun kv => (PKey.v kv.1, kv.2.map (fun p =>
      ((origIndex inp).getD p.1 0, (origIndex inp).getD p.2 0))))

/-- The set of mapped pairs (as unordered `(min, max)` encodings) sharing
at least one label, as computed inside `_only_diffby_multi`. -/
def psetOf (inp : MLInput) : List (Nat × Nat) :=
  ((mlSingleResult inp).flatMap (fun kv => kv.2)).map (fun p => (min p.1 p.2, max p.1 p.2))

/-- Model of `MatcherMultilabel.get_all_pairs`. -/
def mlGetAllPairs (inp : MLInput) (sameby : ColSpec) (diffby : List String) :
    Except MErr Pairs :=
  let diffbyMulti := inp.mlCol ∈ diffby
  let diffby' := if diffbyMulti then diffby.filter (fun c => decide (c ≠ inp.mlCol)) else diffby
  if diffby'.isEmpty && samebyEmpty sameby && diffbyMulti then
    mlOnlyDiffbyMulti inp
  else
    mlGeneral inp sameby diffby' diffbyMulti

/-! ## Invariant predicates and example inputs -/

/-- Propositional form of the lexicographic pair order. -/
def PairLt (p q : Nat × Nat) : Prop := pairLtB p q = true

/-- Invariants of a single emitted pair list: no duplicates, no self-pairs,
no pair together with its reverse. -/
def goodList (l : List (Nat × Nat)) : Prop :=
  l.Nodup ∧ (∀ p ∈ l, p.1 ≠ p.2) ∧ (∀ p ∈ l, (p.2, p.1) ∉ l)

/-- Invariants of a full pair collection: per-key duplicate freedom, no
self-pairs anywhere, and no pair together with its reverse anywhere. -/
def goodPairs (res : Pairs) : Prop :=
  (∀ kl ∈ res, kl.2.Nodup) ∧
  (∀ kl ∈ res, ∀ p ∈ kl.2, p.1 ≠ p.2) ∧
  (∀ kl ∈ res, ∀ kl' ∈ res, ∀ p ∈ kl.2, (p.2, p.1) ∉ kl'.2)

/-- All pairs of a keyed collection, flattened. -/
def flatVals (es : List (κ × List (Nat × Nat))) : List (Nat × Nat) :=
  es.flatMap (fun kv => kv.2)

/-- The batched random state faithfully represents position `n` of the
seeded uniform stream: the buffer holds exactly the pregenerated values
`src n, src (n+1), ...` up to `pos`. -/
def GoodR (src : Nat → Nat) (st : RState) (n : Nat) : Prop :=
  st.pos = n + st.buf.length ∧
  st.buf = (List.range st.buf.length).map (fun i => src (n + i))

/-- The Scenario-A data frame: `compound = [X, X, Y, Y]` (X = 10, Y = 20)
and `plate = [1, 2, 1, 2]`. -/
def scenarioA : Matcher :=
  { values := [[some 10, some 1], [some 10, some 2], [some 20, some 1], [some 20, some 2]],
    columns := ["compound", "plate"] }

/-- Data frame whose row 0 is null in both diffby-any columns. -/
def nullRowFrame : Matcher :=
  { values := [[none, none], [some 1, some 2]], columns := ["a", "b"] }

/-- One-row frame whose only cell is null. -/
def nullCellFrame : Matcher := { values := [[none]], columns := ["c"] }

/-- Three-row frame on which the constant-zero draw leaves row 0 unpaired
(it shares column `a` with row 1 and column `b` with row 2) while row 1
pairs with row 2. -/
def retryFrame : Matcher :=
  { values := [[some 10, some 1], [some 10, some 2], [some 20, some 1]],
    columns := ["a", "b"] }

/-- Uniform-numerator stream whose first draw selects row 0 (which fails)
and whose second draw selects row 1 (which succeeds). -/
def retrySrc : Nat → Nat := fun n => if n = 1 then 5 else 0

/-- Constant uniform stream (value 1/2) used for the C7 witness. -/
def repSrc : Nat → Nat := fun _ => 5

/-- Call sequence mixing sampling and enumeration for the C7 witness. -/
def repCalls : List MCall :=
  [MCall.sample (ColSpec.str "compound") 5,
   MCall.allPairs (ColSpec.str "compound") (ColSpec.str "plate"),
   MCall.sample (ColSpec.str "compound") 5]

/-- Scenario E: one multilabel column `c` over three rows with label sets
`{1,2}`, `{2}`, `{3}`. -/
def scenE : MLInput :=
  { cols := ["c"], mlCol := "c",
    cells := [[none], [none], [none]],
    labels := [[1, 2], [2], [3]] }

/-! ## Lemmas: reverse index -/

theorem mem_insVal {a x : Val} {l : List Val} :
    a ∈ insVal x l ↔ a = x ∨ a ∈ l := by
  induction l with
  | nil => simp [insVal]
  | cons y ys ih =>
    by_cases h1 : x < y
    · simp [insVal, h1]
    · by_cases h2 : x = y
      · subst h2
        simp only [insVal, h1, if_false, if_pos rfl]
        constructor
        · intro h; exact Or.inr h
        · rintro (h | h)
          · simp [h]
          · exact h
      · simp only [insVal, h1, h2, if_false, List.mem_cons, ih]
        tauto

theorem sorted_insVal {x : Val} {l : List Val} (h : l.Pairwise (· < ·)) :
    (insVal x l).Pairwise (· < ·) := by
  induction l with
  | nil => simp [insVal]
  | cons y ys ih =>
    rcases List.pairwise_cons.1 h with ⟨hy, hys⟩
    by_cases h1 : x < y
    · rw [insVal, if_pos h1]
      refine List.pairwise_cons.2 ⟨?_, h⟩
      intro a ha
      rcases List.mem_cons.1 ha with rfl | ha
      · exact h1
      · exact lt_trans h1 (hy a ha)
    · by_cases h2 : x = y
      · rw [insVal, if_neg h1, if_pos h2]
        exact h
      · have hyx : y < x := by
          rcases lt_trichotomy x y with hlt | heq | hgt
          · exact absurd hlt h1
          · exact absurd heq h2
          · exact hgt
        rw [insVal, if_neg h1, if_neg h2]
        refine List.pairwise_cons.2 ⟨?_, ih hys⟩
        intro a ha
        rcases mem_insVal.1 ha with rfl | ha
        · exact hyx
        · exact hy a ha

theorem sorted_foldl_insVal (l : List Val) (acc : List Val)
    (hacc : acc.Pairwise (· < ·)) :
    (l.foldl (fun acc v => insVal v acc) acc).Pairwise (· < ·) := by
  induction l generalizing acc with
  | nil => exact hacc
  | cons x xs ih => exact ih _ (sorted_insVal hacc)

theorem mem_foldl_insVal {a : Val} (l : List Val) (acc : List Val) :
    a ∈ l.foldl (fun acc v => insVal v acc) acc ↔ a ∈ l ∨ a ∈ acc := by
  induction l generalizing acc with
  | nil => simp
  | cons x xs ih =>
    simp only [List.foldl_cons, ih, mem_insVal, List.mem_cons]
    tauto

theorem keysOf_sorted (m : Matcher) (c : String) :
    (keysOf m c).Pairwise (· < ·) :=
  sorted_foldl_insVal _ _ (List.Pairwise.nil)

theorem keysOf_nodup (m : Matcher) (c : String) : (keysOf m c).Nodup :=
  (keysOf_sorted m c).imp ne_of_lt

theorem cellAt_lt_of_some {m : Matcher} {i : Nat} {c : String} {v : Val}
    (h : cellAt m i c = some v) : i < nRows m := by
  by_contra hn
  have hlen : m.values.length ≤ i := by simpa [nRows] using hn
  have hdef : m.values.getD i [] = [] := List.getD_eq_default _ _ hlen
  rw [cellAt, hdef] at h
  simp at h

/-- For a valid row index, `cellAt` reads off the stored row. -/
theorem cellAt_eq_of_lt {m : Matcher} {c : String} {i : Nat}
    (hi : i < m.values.length) :
    cellAt m i c = (m.values[i]).getD (colIx m c) none := by
  rw [cellAt]
  congr 1
  exact List.getD_eq_getElem m.values [] hi

theorem mem_keysOf {m : Matcher} {c : String} {v : Val} :
    v ∈ keysOf m c ↔ ∃ i, i < nRows m ∧ cellAt m i c = some v := by
  rw [keysOf, mem_foldl_insVal]
  simp only [List.not_mem_nil, or_false, List.mem_filterMap, id]
  constructor
  · rintro ⟨cell, hc, hcv⟩
    subst hcv
    rcases List.mem_map.1 hc with ⟨r, hr, hget⟩
    rcases List.mem_iff_getElem.1 hr with ⟨i, hi, rfl⟩
    refine ⟨i, hi, ?_⟩
    rw [cellAt_eq_of_lt hi]
    exact hget
  · rintro ⟨i, hi, hcell⟩
    refine ⟨some v, ?_, rfl⟩
    rw [colCells, List.mem_map]
    exact ⟨m.values[i], List.getElem_mem hi, by rw [← cellAt_eq_of_lt hi]; exact hcell⟩

theorem mem_groupRows {m : Matcher} {c : String} {v : Val} {i : Nat} :
    i ∈ groupRows m c v ↔ i < nRows m ∧ cellAt m i c = some v := by
  simp [groupRows, List.mem_filter, List.mem_range, And.comm]

theorem groupRows_sorted (m : Matcher) (c : String) (v : Val) :
    (groupRows m c v).Pairwise (· < ·) :=
  List.Pairwise.sublist (List.filter_sublist _) (List.pairwise_lt_range _)

theorem find_in_keyMap {ks : List Val} {v : Val} (f : Val → List Nat) (hv : v ∈ ks) :
    (ks.map (fun u => (u, f u))).find? (fun p => p.1 == v) = some (v, f v) := by
  induction ks with
  | nil => cases hv
  | cons k ks ih =>
    by_cases hk : k = v
    · subst hk
      simp [List.find?]
    · have hbeq : ((k, f k).1 == v) = false := by simpa using hk
      rcases List.mem_cons.1 hv with rfl | hv
      · exact absurd rfl hk
      · rw [List.map_cons, List.find?_cons_of_neg _ (by simpa using hk)]
        exact ih hv

theorem lookupG_eq_groupRows {m : Matcher} {c : String} {v : Val}
    (hv : v ∈ keysOf m c) :
    lookupG (reverseIndexM m c) v = groupRows m c v := by
  rw [reverseIndexM, lookupG, find_in_keyMap (groupRows m c) hv]

/-- Membership of a reverse-index entry determines its two components. -/
theorem mem_reverseIndexM {m : Matcher} {c : String} {kv : Val × List Nat}
    (h : kv ∈ reverseIndexM m c) :
    kv.1 ∈ keysOf m c ∧ kv.2 = groupRows m c kv.1 := by
  rcases List.mem_map.1 h with ⟨v, hv, rfl⟩
  exact ⟨hv, rfl⟩

/-! ## Lemmas: the diffby filter -/

theorem listDiff_sublist (a b : List Nat) : (listDiff a b).Sublist a :=
  List.filter_sublist a

theorem mem_listDiff {a b : List Nat} {x : Nat} :
    x ∈ listDiff a b ↔ x ∈ a ∧ x ∉ b := by
  simp [listDiff]

theorem mem_listInter {a b : List Nat} {x : Nat} :
    x ∈ listInter a b ↔ x ∈ a ∧ x ∈ b := by
  simp [listInter]

/-- The diffby-all folding loop only removes candidates. -/
theorem diffAllFold_sublist (m : Matcher) (idx : Nat) (dAll : List String)
    (valid : List Nat) :
    (dAll.foldl (fun v c =>
      match cellAt m idx c with
      | none => v
      | some x => listDiff v (lookupG (reverseIndexM m c) x)) valid).Sublist valid := by
  induction dAll generalizing valid with
  | nil =>
    rw [List.foldl_nil]
  | cons c cs ih =>
    rw [List.foldl_cons]
    refine (ih _).trans ?_
    cases cellAt m idx c with
    | none => exact List.Sublist.refl _
    | some x => exact listDiff_sublist _ _

theorem filterDiffby_sublist {m : Matcher} {idx : Nat} {dAll dAny : List String}
    {valid out : List Nat} (h : filterDiffby m idx dAll dAny valid = .ok out) :
    out.Sublist valid := by
  rw [filterDiffby] at h
  by_cases hAny : dAny.isEmpty
  · rw [if_pos hAny] at h
    cases h
    exact diffAllFold_sublist m idx dAll valid
  · rw [if_neg hAny] at h
    rcases hm : dAny.filterMap (fun c =>
      match cellAt m idx c with
      | none => none
      | some x => some (lookupG (reverseIndexM m c) x)) with _ | ⟨g, gs⟩
    · rw [hm] at h; cases h
    · rw [hm] at h
      cases h
      exact (listDiff_sublist _ _).trans (diffAllFold_sublist m idx dAll valid)

theorem filterDiffby_empty_dAny {m : Matcher} {idx : Nat} {dAll : List String}
    {valid : List Nat} :
    filterDiffby m idx dAll [] valid =
      .ok (dAll.foldl (fun v c =>
        match cellAt m idx c with
        | none => v
        | some x => listDiff v (lookupG (reverseIndexM m c) x)) valid) := by
  rw [filterDiffby]
  simp

/-- Survivors of the diffby-all loop avoid every same-value group of the
probe row's non-null diffby-all columns. -/
theorem mem_diffAllFold (m : Matcher) (idx : Nat) (dAll : List String)
    (valid : List Nat) {a : Nat}
    (ha : a ∈ dAll.foldl (fun v c =>
      match cellAt m idx c with
      | none => v
      | some x => listDiff v (lookupG (reverseIndexM m c) x)) valid) :
    a ∈ valid ∧ ∀ c ∈ dAll, ∀ v, cellAt m idx c = some v →
      a ∉ lookupG (reverseIndexM m c) v := by
  induction dAll generalizing valid with
  | nil => exact ⟨ha, by simp⟩
  | cons c cs ih =>
    rw [List.foldl_cons] at ha
    rcases ih _ ha with ⟨ha', hrest⟩
    constructor
    · rcases hc : cellAt m idx c with _ | x
      · rwa [hc] at ha'
      · rw [hc] at ha'
        exact (mem_listDiff.1 ha').1
    · intro c' hc' v hv
      rcases List.mem_cons.1 hc' with rfl | hc'
      · rw [hv] at ha'
        exact (mem_listDiff.1 ha').2
      · exact hrest c' hc' v hv

/-- Survivors of the diffby-all part of the filter. -/
theorem mem_filterDiffby_all {m : Matcher} {idx : Nat} {dAll dAny : List String}
    {valid out : List Nat} (h : filterDiffby m idx dAll dAny valid = .ok out)
    {a : Nat} (ha : a ∈ out) :
    ∀ c ∈ dAll, ∀ v, cellAt m idx c = some v → a ∉ lookupG (reverseIndexM m c) v := by
  rw [filterDiffby] at h
  by_cases hAny : dAny.isEmpty
  · rw [if_pos hAny] at h
    cases h
    exact (mem_diffAllFold m idx dAll valid ha).2
  · rw [if_neg hAny] at h
    rcases hm : dAny.filterMap (fun c =>
      match cellAt m idx c with
      | none => none
      | some x => some (lookupG (reverseIndexM m c) x)) with _ | ⟨g, gs⟩
    · rw [hm] at h
      simp at h
    · rw [hm] at h
      cases h
      exact (mem_diffAllFold m idx dAll valid (mem_listDiff.1 ha).1).2

/-- Survivors of the diffby-any part of the filter: some non-null diffby-any
column's same-value group excludes the candidate. -/
theorem mem_filterDiffby_any {m : Matcher} {idx : Nat} {dAll dAny : List String}
    {valid out : List Nat} (h : filterDiffby m idx dAll dAny valid = .ok out)
    (hne : dAny ≠ []) {a : Nat} (ha : a ∈ out) :
    ∃ c ∈ dAny, ∃ v, cellAt m idx c = some v ∧ a ∉ lookupG (reverseIndexM m c) v := by
  rw [filterDiffby] at h
  have hAny : dAny.isEmpty = false := by
    cases dAny with
    | nil => exact absurd rfl hne
    | cons c cs => rfl
  rw [hAny] at h
  simp only [Bool.false_eq_true, if_false] at h
  rcases hm : dAny.filterMap (fun c =>
    match cellAt m idx c with
    | none => none
    | some x => some (lookupG (reverseIndexM m c) x)) with _ | ⟨g, gs⟩
  · rw [hm] at h
    simp at h
  · rw [hm] at h
    cases h
    have hnotin : a ∉ gs.foldl listInter g := (mem_listDiff.1 ha).2
    -- a is missing from the intersection, hence from one of the groups
    have hgroup : ∃ gr ∈ g :: gs, a ∉ gr := by
      by_contra hall
      push_neg at hall
      apply hnotin
      have : ∀ (gs' : List (List Nat)) (g' : List Nat),
          a ∈ g' → (∀ gr ∈ gs', a ∈ gr) → a ∈ gs'.foldl listInter g' := by
        intro gs'
        induction gs' with
        | nil => intro g' hg' _; exact hg'
        | cons x xs ih =>
          intro g' hg' hall'
          rw [List.foldl_cons]
          exact ih _ (mem_listInter.2 ⟨hg', hall' x (List.mem_cons_self x xs)⟩)
            (fun gr hgr => hall' gr (List.mem_cons_of_mem x hgr))
      exact this gs g (hall g (List.mem_cons_self g gs)) (fun gr hgr => hall gr (List.mem_cons_of_mem g hgr))
    rcases hgroup with ⟨gr, hgr, hnot⟩
    have : gr ∈ dAny.filterMap (fun c =>
      match cellAt m idx c with
      | none => none
      | some x => some (lookupG (reverseIndexM m c) x)) := by
      rw [hm]
      exact hgr
    rcases List.mem_filterMap.1 this with ⟨c, hc, hcg⟩
    rcases hcell : cellAt m idx c with _ | x
    · rw [hcell] at hcg
      simp at hcg
    · rw [hcell] at hcg
      simp only [Option.some.injEq] at hcg
      exact ⟨c, hc, x, hcell, by rw [hcg]; exact hnot⟩

/-! ## Lemmas: single-column enumeration -/

theorem pairsFromRows_mem {m : Matcher} {dAll dAny : List String}
    {rows : List Nat} {ps : List (Nat × Nat)}
    (h : pairsFromRows m dAll dAny rows = .ok ps)
    (hsort : rows.Pairwise (· < ·)) :
    ∀ p ∈ ps, p.1 ∈ rows ∧ p.2 ∈ rows ∧ p.1 < p.2 := by
  induction rows generalizing ps with
  | nil =>
    rw [pairsFromRows] at h
    cases h
    intro p hp
    cases hp
  | cons id1 rest ih =>
    rw [pairsFromRows] at h
    rcases hf : filterDiffby m id1 dAll dAny rest with e | valid
    · rw [hf] at h
      simp at h
    · rw [hf] at h
      rcases ht : pairsFromRows m dAll dAny rest with e | tail
      · rw [ht] at h
        simp at h
      · rw [ht] at h
        cases h
        rcases List.pairwise_cons.1 hsort with ⟨hlt, hsort'⟩
        intro p hp
        rcases List.mem_append.1 hp with hp | hp
        · rcases List.mem_map.1 hp with ⟨id2, hid2, rfl⟩
          have hid2' : id2 ∈ rest := (filterDiffby_sublist hf).subset hid2
          exact ⟨List.mem_cons_self _ _, List.mem_cons_of_mem _ hid2', hlt id2 hid2'⟩
        · rcases ih ht hsort' p hp with ⟨h1, h2, h3⟩
          exact ⟨List.mem_cons_of_mem _ h1, List.mem_cons_of_mem _ h2, h3⟩

theorem pairsFromRows_nodup {m : Matcher} {dAll dAny : List String}
    {rows : List Nat} {ps : List (Nat × Nat)}
    (h : pairsFromRows m dAll dAny rows = .ok ps)
    (hsort : rows.Pairwise (· < ·)) : ps.Nodup := by
  induction rows generalizing ps with
  | nil =>
    rw [pairsFromRows] at h
    cases h
    exact List.nodup_nil
  | cons id1 rest ih =>
    rw [pairsFromRows] at h
    rcases hf : filterDiffby m id1 dAll dAny rest with e | valid
    · rw [hf] at h
      simp at h
    · rw [hf] at h
      rcases ht : pairsFromRows m dAll dAny rest with e | tail
      · rw [ht] at h
        simp at h
      · rw [ht] at h
        cases h
        rcases List.pairwise_cons.1 hsort with ⟨hlt, hsort'⟩
        refine List.Nodup.append ?_ (ih ht hsort') ?_
        · exact ((filterDiffby_sublist hf).nodup (hsort'.imp ne_of_lt)).map
            (fun a b hab => by simpa using hab)
        · intro p hp1 hp2
          rcases List.mem_map.1 hp1 with ⟨id2, _, rfl⟩
          have hmem := (pairsFromRows_mem ht hsort' _ hp2).1
          exact absurd (hlt id1 hmem) (lt_irrefl id1)

/-- With no diffby columns the single-column loop enumerates every
unordered pair within the group, in `itertools.combinations` order. -/
theorem pairsFromRows_no_diffby (m : Matcher) (rows : List Nat) :
    pairsFromRows m [] [] rows = .ok (combos2 rows) := by
  induction rows with
  | nil => rw [pairsFromRows, combos2]
  | cons id1 rest ih =>
    rw [pairsFromRows, filterDiffby_empty_dAny, List.foldl_nil, ih, combos2]

theorem singleEntries_mem {m : Matcher} {dAll dAny : List String}
    {l : List (Val × List Nat)} {es : List (Val × List (Nat × Nat))}
    (h : singleEntries m dAll dAny l = .ok es) :
    ∀ kv ∈ es, ∃ g, (kv.1, g) ∈ l ∧ pairsFromRows m dAll dAny g = .ok kv.2 := by
  induction l generalizing es with
  | nil =>
    rw [singleEntries] at h
    cases h
    intro kv hkv
    cases hkv
  | cons x xs ih =>
    rw [singleEntries] at h
    rcases hp : pairsFromRows m dAll dAny x.2 with e | ps
    · rw [hp] at h
      simp at h
    · rw [hp] at h
      rcases ht : singleEntries m dAll dAny xs with e | tail
      · rw [ht] at h
        simp at h
      · rw [ht] at h
        cases h
        intro kv hkv
        rcases List.mem_cons.1 hkv with rfl | hkv
        · exact ⟨x.2, List.mem_cons_self _ _, hp⟩
        · rcases ih ht kv hkv with ⟨g, hg, hps⟩
          exact ⟨g, List.mem_cons_of_mem _ hg, hps⟩

/-- Every entry of a successful single-column enumeration: non-empty list,
key in the column's distinct values, and the pairs are the diffby-filtered
pairs of that key's group. -/
theorem getAllPairsSingle_mem {m : Matcher} {c : String} {dAll dAny : List String}
    {es : List (Val × List (Nat × Nat))}
    (h : getAllPairsSingle m c dAll dAny = .ok es) :
    ∀ kv ∈ es, kv.2 ≠ [] ∧ kv.1 ∈ keysOf m c ∧
      pairsFromRows m dAll dAny (groupRows m c kv.1) = .ok kv.2 := by
  rw [getAllPairsSingle] at h
  rcases hs : singleEntries m dAll dAny (reverseIndexM m c) with e | entries
  · rw [hs] at h
    simp at h
  · rw [hs] at h
    cases h
    intro kv hkv
    have hkv' := List.mem_filter.1 hkv
    rcases singleEntries_mem hs kv hkv'.1 with ⟨g, hg, hps⟩
    rcases mem_reverseIndexM hg with ⟨hk, hgr⟩
    refine ⟨?_, hk, ?_⟩
    · intro hemp
      rw [hemp] at hkv'
      simp at hkv'
    · rw [← hgr]
      exact hps

/-- Facts about every emitted pair of a single-column enumeration. -/
theorem getAllPairsSingle_pairs {m : Matcher} {c : String} {dAll dAny : List String}
    {es : List (Val × List (Nat × Nat))}
    (h : getAllPairsSingle m c dAll dAny = .ok es) :
    ∀ kv ∈ es, ∀ p ∈ kv.2, p.1 < p.2 ∧
      p.1 ∈ groupRows m c kv.1 ∧ p.2 ∈ groupRows m c kv.1 := by
  intro kv hkv p hp
  rcases getAllPairsSingle_mem h kv hkv with ⟨_, _, hps⟩
  rcases pairsFromRows_mem hps (groupRows_sorted m c kv.1) p hp with ⟨h1, h2, h3⟩
  exact ⟨h3, h1, h2⟩

theorem getAllPairsSingle_nodup {m : Matcher} {c : String} {dAll dAny : List String}
    {es : List (Val × List (Nat × Nat))}
    (h : getAllPairsSingle m c dAll dAny = .ok es) :
    ∀ kv ∈ es, kv.2.Nodup := by
  intro kv hkv
  rcases getAllPairsSingle_mem h kv hkv with ⟨_, _, hps⟩
  exact pairsFromRows_nodup hps (groupRows_sorted m c kv.1)

/-! ## Lemmas: lexicographic sorting / dedup of pair arrays -/

theorem pairLt_iff {p q : Nat × Nat} :
    PairLt p q ↔ p.1 < q.1 ∨ (p.1 = q.1 ∧ p.2 < q.2) := by
  simp [PairLt, pairLtB, Bool.or_eq_true, Bool.and_eq_true, beq_iff_eq, decide_eq_true_eq]

theorem pairLt_irrefl (p : Nat × Nat) : ¬ PairLt p p := by
  rw [pairLt_iff]
  omega

theorem pairLt_trans {p q r : Nat × Nat} (h1 : PairLt p q) (h2 : PairLt q r) :
    PairLt p r := by
  rw [pairLt_iff] at *
  omega

theorem pairLt_total {p q : Nat × Nat} (h1 : ¬ PairLt p q) (h2 : p ≠ q) :
    PairLt q p := by
  rw [pairLt_iff] at h1 ⊢
  rcases p with ⟨a, b⟩
  rcases q with ⟨c, d⟩
  have h2' : a ≠ c ∨ b ≠ d := by
    by_contra hc
    push_neg at hc
    exact h2 (by rw [hc.1, hc.2])
  simp only at h1 ⊢
  omega

theorem mem_insPair {a p : Nat × Nat} {l : List (Nat × Nat)} :
    a ∈ insPair p l ↔ a = p ∨ a ∈ l := by
  induction l with
  | nil => simp [insPair]
  | cons q qs ih =>
    by_cases h1 : pairLtB p q
    · rw [insPair, if_pos h1]
      simp only [List.mem_cons]
    · by_cases h2 : p = q
      · rw [insPair, if_neg h1, if_pos h2]
        subst h2
        simp only [List.mem_cons]
        tauto
      · rw [insPair, if_neg h1, if_neg h2]
        simp only [List.mem_cons, ih]
        tauto

theorem sorted_insPair {p : Nat × Nat} {l : List (Nat × Nat)}
    (h : l.Pairwise PairLt) : (insPair p l).Pairwise PairLt := by
  induction l with
  | nil => simp [insPair]
  | cons q qs ih =>
    rcases List.pairwise_cons.1 h with ⟨hq, hqs⟩
    by_cases h1 : pairLtB p q
    · rw [insPair, if_pos h1]
      refine List.pairwise_cons.2 ⟨?_, h⟩
      intro a ha
      rcases List.mem_cons.1 ha with rfl | ha
      · exact h1
      · exact pairLt_trans h1 (hq a ha)
    · by_cases h2 : p = q
      · rw [insPair, if_neg h1, if_pos h2]
        exact h
      · have hqp : PairLt q p := pairLt_total (fun hc => h1 hc) h2
        rw [insPair, if_neg h1, if_neg h2]
        refine List.pairwise_cons.2 ⟨?_, ih hqs⟩
        intro a ha
        rcases mem_insPair.1 ha with rfl | ha
        · exact hqp
        · exact hq a ha

theorem sorted_sortDedupPairs (l : List (Nat × Nat)) :
    (sortDedupPairs l).Pairwise PairLt := by
  rw [sortDedupPairs]
  have : ∀ acc : List (Nat × Nat), acc.Pairwise PairLt →
      (l.foldl (fun acc p => insPair p acc) acc).Pairwise PairLt := by
    induction l with
    | nil => intro acc hacc; exact hacc
    | cons x xs ih => intro acc hacc; exact ih _ (sorted_insPair hacc)
  exact this [] List.Pairwise.nil

theorem nodup_sortDedupPairs (l : List (Nat × Nat)) : (sortDedupPairs l).Nodup :=
  (sorted_sortDedupPairs l).imp (fun h => by
    intro heq
    subst heq
    exact pairLt_irrefl _ h)

theorem mem_sortDedupPairs {a : Nat × Nat} {l : List (Nat × Nat)} :
    a ∈ sortDedupPairs l ↔ a ∈ l := by
  rw [sortDedupPairs]
  have : ∀ acc : List (Nat × Nat),
      (a ∈ l.foldl (fun acc p => insPair p acc) acc ↔ a ∈ l ∨ a ∈ acc) := by
    induction l with
    | nil => intro acc; simp
    | cons x xs ih =>
      intro acc
      rw [List.foldl_cons, ih, mem_insPair]
      simp only [List.mem_cons]
      tauto
  rw [this []]
  simp

/-! ## Lemmas: combinations and full cross pairs -/

theorem combos2_mem {l : List α} {gg : α × α} (h : gg ∈ combos2 l) :
    gg.1 ∈ l ∧ gg.2 ∈ l := by
  induction l with
  | nil => cases h
  | cons x xs ih =>
    rw [combos2] at h
    rcases List.mem_append.1 h with h | h
    · rcases List.mem_map.1 h with ⟨b, hb, rfl⟩
      exact ⟨List.mem_cons_self _ _, List.mem_cons_of_mem _ hb⟩
    · rcases ih h with ⟨h1, h2⟩
      exact ⟨List.mem_cons_of_mem _ h1, List.mem_cons_of_mem _ h2⟩

theorem combos2_pairwise {R : α → α → Prop} {l : List α} (hl : l.Pairwise R)
    {gg : α × α} (h : gg ∈ combos2 l) : R gg.1 gg.2 := by
  induction l with
  | nil => cases h
  | cons x xs ih =>
    rcases List.pairwise_cons.1 hl with ⟨hx, hxs⟩
    rw [combos2] at h
    rcases List.mem_append.1 h with h | h
    · rcases List.mem_map.1 h with ⟨b, hb, rfl⟩
      exact hx b hb
    · exact ih hxs h

theorem combos2_complete {l : List α} {a b : α} (ha : a ∈ l) (hb : b ∈ l)
    (hab : a ≠ b) : (a, b) ∈ combos2 l ∨ (b, a) ∈ combos2 l := by
  induction l with
  | nil => cases ha
  | cons x xs ih =>
    rw [combos2]
    rcases List.mem_cons.1 ha with rfl | ha'
    · rcases List.mem_cons.1 hb with rfl | hb'
      · exact absurd rfl hab
      · exact Or.inl (List.mem_append.2 (Or.inl (List.mem_map.2 ⟨b, hb', rfl⟩)))
    · rcases List.mem_cons.1 hb with rfl | hb'
      · exact Or.inr (List.mem_append.2 (Or.inl (List.mem_map.2 ⟨a, ha', rfl⟩)))
      · rcases ih ha' hb' with h | h
        · exact Or.inl (List.mem_append.2 (Or.inr h))
        · exact Or.inr (List.mem_append.2 (Or.inr h))

theorem mem_getFullPairs {ri : List (Val × List Nat)} {p : Nat × Nat}
    (h : p ∈ getFullPairs ri) :
    ∃ gg ∈ combos2 ri, p.1 ∈ gg.1.2 ∧ p.2 ∈ gg.2.2 := by
  rw [getFullPairs] at h
  rcases List.mem_flatMap.1 h with ⟨gg, hgg, hp⟩
  rcases List.mem_flatMap.1 hp with ⟨a, ha, hp2⟩
  rcases List.mem_map.1 hp2 with ⟨b, hb, rfl⟩
  exact ⟨gg, hgg, ha, hb⟩

/-- Every full cross pair of a column's reverse index consists of two rows
whose values in that column are distinct, with the first group's key
strictly below the second (pandas sorts group keys ascending). -/
theorem getFullPairs_values {m : Matcher} {c : String} {p : Nat × Nat}
    (h : p ∈ getFullPairs (reverseIndexM m c)) :
    ∃ va vb, va < vb ∧ cellAt m p.1 c = some va ∧ cellAt m p.2 c = some vb := by
  rcases mem_getFullPairs h with ⟨gg, hgg, h1, h2⟩
  have hkeys : (reverseIndexM m c).Pairwise (fun a b => a.1 < b.1) := by
    rw [reverseIndexM]
    exact List.pairwise_map.2 ((keysOf_sorted m c).imp (fun h => h))
  have hlt : gg.1.1 < gg.2.1 := combos2_pairwise hkeys hgg
  rcases combos2_mem hgg with ⟨hm1, hm2⟩
  rcases mem_reverseIndexM hm1 with ⟨_, hg1⟩
  rcases mem_reverseIndexM hm2 with ⟨_, hg2⟩
  rw [hg1] at h1
  rw [hg2] at h2
  exact ⟨gg.1.1, gg.2.1, hlt, (mem_groupRows.1 h1).2, (mem_groupRows.1 h2).2⟩

/-! ## The pair-collection invariants of the specification -/

theorem goodPairs_single_na {l : List (Nat × Nat)} (h : goodList l) :
    goodPairs [(PKey.na, l)] := by
  rcases h with ⟨h1, h2, h3⟩
  refine ⟨?_, ?_, ?_⟩
  · intro kl hkl
    rcases List.mem_cons.1 hkl with rfl | hkl
    · exact h1
    · cases hkl
  · intro kl hkl
    rcases List.mem_cons.1 hkl with rfl | hkl
    · exact h2
    · cases hkl
  · intro kl hkl kl' hkl'
    rcases List.mem_cons.1 hkl with rfl | hkl
    · rcases List.mem_cons.1 hkl' with rfl | hkl'
      · exact h3
      · cases hkl'
    · cases hkl

/-- Pair collections in which every pair is ascending and every key list is
duplicate-free satisfy all the invariants. -/
theorem goodPairs_of_loHi {res : Pairs}
    (hlo : ∀ kl ∈ res, ∀ p ∈ kl.2, p.1 < p.2)
    (hnd : ∀ kl ∈ res, kl.2.Nodup) : goodPairs res := by
  refine ⟨hnd, ?_, ?_⟩
  · intro kl hkl p hp
    exact ne_of_lt (hlo kl hkl p hp)
  · intro kl hkl kl' hkl' p hp hrev
    have h1 := hlo kl hkl p hp
    have h2 := hlo kl' hkl' _ hrev
    simp only at h2
    omega

/-- A sublist of a collection (whole key entries kept or dropped) inherits
the invariants. -/
theorem goodPairs_sublist {res res' : Pairs} (hs : res'.Sublist res)
    (h : goodPairs res) : goodPairs res' := by
  rcases h with ⟨h1, h2, h3⟩
  exact ⟨fun kl hkl => h1 kl (hs.subset hkl),
    fun kl hkl => h2 kl (hs.subset hkl),
    fun kl hkl kl' hkl' => h3 kl (hs.subset hkl) kl' (hs.subset hkl')⟩

theorem goodList_sublist {l l' : List (Nat × Nat)} (hs : l'.Sublist l)
    (h : goodList l) : goodList l' := by
  rcases h with ⟨h1, h2, h3⟩
  exact ⟨h1.sublist hs, fun p hp => h2 p (hs.subset hp),
    fun p hp hrev => h3 p (hs.subset hp) (hs.subset hrev)⟩

theorem headD_mem {l : List α} (h : l ≠ []) (d : α) : l.headD d ∈ l := by
  cases l with
  | nil => exact absurd rfl h
  | cons x xs => exact List.mem_cons_self _ _

/-! ## Invariants of the diffby-only branches -/

/-- Within one column's full cross pairs, the two members carry distinct
values with the first one's group key strictly smaller; this rules out
self-pairs and reversed duplicates. -/
theorem goodList_of_fullPairs_subset {m : Matcher} {c : String}
    {l : List (Nat × Nat)} (hnd : l.Nodup)
    (hsub : ∀ p ∈ l, p ∈ getFullPairs (reverseIndexM m c)) : goodList l := by
  refine ⟨hnd, ?_, ?_⟩
  · intro p hp heq
    rcases getFullPairs_values (hsub p hp) with ⟨va, vb, hab, h1, h2⟩
    rw [heq, h2] at h1
    cases h1
    exact lt_irrefl va hab
  · intro p hp hrev
    rcases getFullPairs_values (hsub p hp) with ⟨va, vb, hab, h1, h2⟩
    rcases getFullPairs_values (hsub _ hrev) with ⟨wa, wb, hwab, hw1, hw2⟩
    simp only at hw1 hw2
    rw [h1] at hw2
    rw [h2] at hw1
    cases hw1
    cases hw2
    exact lt_irrefl va (lt_trans hab hwab)

theorem onlyDiffbyAll_good {m : Matcher} {dAll : List String} {res : Pairs}
    (h : onlyDiffbyAll m dAll = .ok res) : goodPairs res := by
  rw [onlyDiffbyAll] at h
  set srt := sortKeyed (colRank m) dAll with hsrt
  set basePairs := getFullPairs (reverseIndexM m (srt.headD "")) with hbp
  rcases hfp : (if 1 < srt.length
      then filterPairsByCondition m basePairs srt.tail .allDiff
      else .ok basePairs) with e | ps
  · rw [hfp] at h
    simp at h
  · rw [hfp] at h
    cases h
    have hpsSub : ∀ p ∈ ps, p ∈ basePairs := by
      by_cases hlen : 1 < srt.length
      · rw [if_pos hlen, filterPairsByCondition] at hfp
        by_cases hemp : basePairs.isEmpty
        · rw [if_pos hemp] at hfp
          simp at hfp
        · rw [if_neg hemp] at hfp
          cases hfp
          intro p hp
          exact (List.mem_filter.1 hp).1
      · rw [if_neg hlen] at hfp
        cases hfp
        intro p hp
        exact hp
    refine goodPairs_single_na
      (@goodList_of_fullPairs_subset m (srt.headD "") _ (nodup_sortDedupPairs ps) ?_)
    intro p hp
    exact hpsSub p (mem_sortDedupPairs.1 hp)

theorem onlyDiffbyAny_good {m : Matcher} {dAny : List String} {res : Pairs}
    (h : onlyDiffbyAny m dAny = .ok res) : goodPairs res := by
  rw [onlyDiffbyAny] at h
  cases h
  refine goodPairs_of_loHi ?_ ?_
  · intro kl hkl p hp
    rcases List.mem_cons.1 hkl with rfl | hkl
    · simp only at hp
      rcases List.mem_map.1 (mem_sortDedupPairs.1 hp) with ⟨q, hq, rfl⟩
      rcases List.mem_flatMap.1 hq with ⟨c, _, hqc⟩
      rcases getFullPairs_values hqc with ⟨va, vb, hab, h1, h2⟩
      have : q.1 ≠ q.2 := by
        intro heq
        rw [heq, h2] at h1
        cases h1
        exact lt_irrefl va hab
      simp only
      omega
    · cases hkl
  · intro kl hkl
    rcases List.mem_cons.1 hkl with rfl | hkl
    · exact nodup_sortDedupPairs _
    · cases hkl

/-- The diffby-all branch always yields a one-entry `None`-keyed dictionary. -/
theorem onlyDiffbyAll_shape {m : Matcher} {dAll : List String} {res : Pairs}
    (h : onlyDiffbyAll m dAll = .ok res) : ∃ l, res = [(PKey.na, l)] := by
  rw [onlyDiffbyAll] at h
  split at h
  · simp at h
  · cases h
    exact ⟨_, rfl⟩

theorem goodList_of_goodPairs_na {l : List (Nat × Nat)}
    (h : goodPairs [(PKey.na, l)]) : goodList l := by
  rcases h with ⟨g1, g2, g3⟩
  have hmem : (PKey.na, l) ∈ [(PKey.na, l)] := List.mem_cons_self _ _
  exact ⟨g1 _ hmem, g2 _ hmem, fun p hp => g3 _ hmem _ hmem p hp⟩

theorem onlyDiffbyAllAny_good {m : Matcher} {dAll dAny : List String} {res : Pairs}
    (h : onlyDiffbyAllAny m dAll dAny = .ok res) : goodPairs res := by
  rw [onlyDiffbyAllAny] at h
  split at h
  · simp at h
  · rename_i resAll hall
    split at h
    · simp at h
    · rename_i fp hfp
      cases h
      rcases onlyDiffbyAll_shape hall with ⟨l, rfl⟩
      have hl : goodList l := goodList_of_goodPairs_na (onlyDiffbyAll_good hall)
      simp only [List.headD_cons] at hfp
      rw [filterPairsByCondition] at hfp
      split at hfp
      · simp at hfp
      · cases hfp
        exact goodPairs_single_na (goodList_sublist (List.filter_sublist l) hl)

/-! ## Invariants of the sameby branches -/

theorem mem_flatVals {es : List (κ × List (Nat × Nat))} {p : Nat × Nat} :
    p ∈ flatVals es ↔ ∃ kv ∈ es, p ∈ kv.2 := by
  simp [flatVals]

theorem flatVals_assocAppend (ps : Pairs) (k : PKey) (pr : Nat × Nat) :
    (flatVals (assocAppend ps k pr)).Perm (pr :: flatVals ps) := by
  induction ps with
  | nil => simp [flatVals, assocAppend]
  | cons kv rest ih =>
    rw [assocAppend]
    by_cases hk : kv.1 = k
    · rw [if_pos hk]
      simp only [flatVals, List.flatMap_cons]
      rw [List.append_assoc]
      exact List.perm_middle
    · rw [if_neg hk]
      simp only [flatVals, List.flatMap_cons]
      exact (List.Perm.append_left kv.2 ih).trans List.perm_middle

theorem flatVals_composeInner (m : Matcher) (orig : List String) (c0 : String)
    (rcols : List String) (k : Val) (l : List (Nat × Nat)) :
    ∀ acc : Pairs,
      (flatVals (l.foldl (fun acc2 pr => composeStep m orig c0 rcols acc2 k pr) acc)).Perm
        (l.filter (restEq m rcols) ++ flatVals acc) := by
  induction l with
  | nil =>
    intro acc
    simp
  | cons pr l' ih =>
    intro acc
    rw [List.foldl_cons]
    by_cases hc : restEq m rcols pr
    · rw [List.filter_cons_of_pos hc]
      have hstep : composeStep m orig c0 rcols acc k pr =
          assocAppend acc (compKeyFor m orig c0 k pr.1) pr := by
        rw [composeStep, if_pos hc]
      rw [hstep]
      refine (ih _).trans ?_
      exact (List.Perm.append_left _ (flatVals_assocAppend acc _ pr)).trans List.perm_middle
    · rw [List.filter_cons_of_neg hc]
      have hstep : composeStep m orig c0 rcols acc k pr = acc := by
        rw [composeStep, if_neg hc]
      rw [hstep]
      exact ih acc

theorem flatVals_composePairs (m : Matcher) (orig : List String) (c0 : String)
    (rcols : List String) (cand : List (Val × List (Nat × Nat))) :
    (flatVals (composePairs m orig c0 rcols cand)).Perm
      (cand.flatMap (fun kv => kv.2.filter (restEq m rcols))) := by
  rw [composePairs]
  have main : ∀ acc : Pairs,
      (flatVals (cand.foldl (fun acc kv =>
        kv.2.foldl (fun acc2 pr => composeStep m orig c0 rcols acc2 kv.1 pr) acc) acc)).Perm
      (cand.flatMap (fun kv => kv.2.filter (restEq m rcols)) ++ flatVals acc) := by
    induction cand with
    | nil =>
      intro acc
      simp
    | cons kv rest ih =>
      intro acc
      rw [List.foldl_cons, List.flatMap_cons]
      refine (ih _).trans ?_
      refine (List.Perm.append_left _
        (flatVals_composeInner m orig c0 rcols kv.1 kv.2 acc)).trans ?_
      rw [← List.append_assoc]
      exact List.Perm.append_right _ List.perm_append_comm
  have := main []
  simpa [flatVals] using this

/-- Sub-collections of per-key filters, flattened, form a sublist of the
full flattening. -/
theorem flatMap_filter_sublist (cand : List (Val × List (Nat × Nat)))
    (f : (Nat × Nat) → Bool) :
    (cand.flatMap (fun kv => kv.2.filter f)).Sublist (flatVals cand) := by
  induction cand with
  | nil => exact List.Sublist.refl _
  | cons kv rest ih =>
    simp only [flatVals, List.flatMap_cons]
    exact List.Sublist.append (List.filter_sublist _) ih

/-- A flattening without duplicates forces every key's list to be without
duplicates. -/
theorem nodup_of_flatVals_nodup {es : List (κ × List (Nat × Nat))}
    (h : (flatVals es).Nodup) : ∀ kv ∈ es, kv.2.Nodup := by
  induction es with
  | nil =>
    intro kv hkv
    cases hkv
  | cons kv rest ih =>
    simp only [flatVals, List.flatMap_cons] at h
    intro kv' hkv'
    rcases List.mem_cons.1 hkv' with rfl | hkv'
    · exact h.of_append_left
    · exact ih h.of_append_right kv' hkv'

/-- Distinct keys with value-grouped members give a duplicate-free
flattening. -/
theorem nodup_flatVals {m : Matcher} {c : String}
    {es : List (Val × List (Nat × Nat))}
    (hkeys : (es.map Prod.fst).Nodup)
    (hnd : ∀ kv ∈ es, kv.2.Nodup)
    (hmem : ∀ kv ∈ es, ∀ p ∈ kv.2, p.1 ∈ groupRows m c kv.1) :
    (flatVals es).Nodup := by
  induction es with
  | nil => exact List.nodup_nil
  | cons kv rest ih =>
    simp only [flatVals, List.flatMap_cons]
    simp only [List.map_cons, List.nodup_cons] at hkeys
    refine List.Nodup.append (hnd kv (List.mem_cons_self _ _)) ?_ ?_
    · exact ih hkeys.2 (fun kv' h' => hnd kv' (List.mem_cons_of_mem _ h'))
        (fun kv' h' => hmem kv' (List.mem_cons_of_mem _ h'))
    · intro p hp hp'
      rcases mem_flatVals.1 hp' with ⟨kv', hkv', hpkv'⟩
      have h1 := hmem kv (List.mem_cons_self _ _) p hp
      have h2 := hmem kv' (List.mem_cons_of_mem _ hkv') p hpkv'
      have e1 := (mem_groupRows.1 h1).2
      have e2 := (mem_groupRows.1 h2).2
      rw [e1] at e2
      have : kv.1 = kv'.1 := by injection e2
      exact hkeys.1 (this ▸ List.mem_map.2 ⟨kv', hkv', rfl⟩)

theorem singleEntries_keys {m : Matcher} {dAll dAny : List String}
    {l : List (Val × List Nat)} {es : List (Val × List (Nat × Nat))}
    (h : singleEntries m dAll dAny l = .ok es) :
    es.map Prod.fst = l.map Prod.fst := by
  induction l generalizing es with
  | nil =>
    rw [singleEntries] at h
    cases h
    rfl
  | cons x xs ih =>
    rw [singleEntries] at h
    split at h
    · simp at h
    · split at h
      · simp at h
      · cases h
        rename_i ps hps tail htail
        simp only [List.map_cons]
        rw [ih htail]

theorem map_fst_keyMap (f : Val → List Nat) (ks : List Val) :
    (ks.map (fun v => (v, f v))).map Prod.fst = ks := by
  induction ks with
  | nil => rfl
  | cons k ks ih => simp [ih]

theorem getAllPairsSingle_keys_nodup {m : Matcher} {c : String}
    {dAll dAny : List String} {es : List (Val × List (Nat × Nat))}
    (h : getAllPairsSingle m c dAll dAny = .ok es) :
    (es.map Prod.fst).Nodup := by
  rw [getAllPairsSingle] at h
  split at h
  · simp at h
  · cases h
    rename_i entries hs
    have hkeys := singleEntries_keys hs
    have hri : (reverseIndexM m c).map Prod.fst = keysOf m c := by
      rw [reverseIndexM]
      exact map_fst_keyMap _ _
    have hsub : ((entries.filter (fun e => !e.2.isEmpty)).map Prod.fst).Sublist
        (entries.map Prod.fst) := (List.filter_sublist _).map _
    rw [hkeys, hri] at hsub
    exact hsub.nodup (keysOf_nodup m c)

/-- The flattening of a single-column enumeration has no duplicate pairs. -/
theorem getAllPairsSingle_flat_nodup {m : Matcher} {c : String}
    {dAll dAny : List String} {es : List (Val × List (Nat × Nat))}
    (h : getAllPairsSingle m c dAll dAny = .ok es) :
    (flatVals es).Nodup := by
  refine @nodup_flatVals m c es (getAllPairsSingle_keys_nodup h)
    (getAllPairsSingle_nodup h) ?_
  intro kv hkv p hp
  exact (getAllPairsSingle_pairs h kv hkv p hp).2.1

theorem samebyBase_good {m : Matcher} {sAll dAll dAny : List String} {base : Pairs}
    (h : samebyBase m sAll dAll dAny = .ok base) : goodPairs base := by
  rw [samebyBase] at h
  split at h
  · cases h
    exact ⟨fun kl hkl => absurd hkl (List.not_mem_nil kl),
      fun kl hkl => absurd hkl (List.not_mem_nil kl),
      fun kl hkl => absurd hkl (List.not_mem_nil kl)⟩
  · split at h
    · -- single sameby column
      split at h
      · simp at h
      · cases h
        rename_i entries hsingle
        refine goodPairs_of_loHi ?_ ?_
        · intro kl hkl p hp
          rcases List.mem_map.1 hkl with ⟨kv, hkv, rfl⟩
          exact (getAllPairsSingle_pairs hsingle kv hkv p hp).1
        · intro kl hkl
          rcases List.mem_map.1 hkl with ⟨kv, hkv, rfl⟩
          exact getAllPairsSingle_nodup hsingle kv hkv
    · -- multiple sameby columns: re-keyed candidates
      split at h
      · simp at h
      · cases h
        rename_i cand hcand
        have hperm := flatVals_composePairs m sAll
          ((sortKeyed (colRank m) sAll).headD "") (sortKeyed (colRank m) sAll).tail cand
        have hflat_nodup : (flatVals (composePairs m sAll
            ((sortKeyed (colRank m) sAll).headD "") (sortKeyed (colRank m) sAll).tail cand)).Nodup := by
          refine hperm.symm.nodup ?_
          exact ((flatMap_filter_sublist cand _).nodup) (getAllPairsSingle_flat_nodup hcand)
        have hmemflat : ∀ p ∈ flatVals (composePairs m sAll
            ((sortKeyed (colRank m) sAll).headD "") (sortKeyed (colRank m) sAll).tail cand),
            p.1 < p.2 := by
          intro p hp
          have := hperm.mem_iff.1 hp
          rcases List.mem_flatMap.1 this with ⟨kv, hkv, hpf⟩
          exact (getAllPairsSingle_pairs hcand kv hkv p (List.mem_filter.1 hpf).1).1
        refine goodPairs_of_loHi ?_ ?_
        · intro kl hkl p hp
          exact hmemflat p (mem_flatVals.2 ⟨kl, hkl, hp⟩)
        · exact nodup_of_flatVals_nodup hflat_nodup

theorem keepKeys_sublist {fp : List (Nat × Nat)} {ps out : Pairs}
    (h : keepKeys fp ps = .ok out) : out.Sublist ps := by
  induction ps generalizing out with
  | nil =>
    rw [keepKeys] at h
    cases h
    exact List.Sublist.refl _
  | cons kv rest ih =>
    rw [keepKeys] at h
    split at h
    · simp at h
    · rename_i b hb
      split at h
      · simp at h
      · rename_i tail htail
        cases h
        cases b
        · exact (ih htail).cons kv
        · exact (ih htail).cons₂ kv

theorem anySingles_mem {m : Matcher} {dAll dAny : List String} {cols : List String}
    {colRes : List (List (Val × List (Nat × Nat)))}
    (h : anySingles m dAll dAny cols = .ok colRes) :
    ∀ cr ∈ colRes, ∃ c ∈ cols, getAllPairsSingle m c dAll dAny = .ok cr := by
  induction cols generalizing colRes with
  | nil =>
    rw [anySingles] at h
    cases h
    intro cr hcr
    cases hcr
  | cons c rest ih =>
    rw [anySingles] at h
    split at h
    · simp at h
    · rename_i cr0 hcr0
      split at h
      · simp at h
      · rename_i tail htail
        cases h
        intro cr hcr
        rcases List.mem_cons.1 hcr with rfl | hcr
        · exact ⟨c, List.mem_cons_self _ _, hcr0⟩
        · rcases ih htail cr hcr with ⟨c', hc', hok⟩
          exact ⟨c', List.mem_cons_of_mem _ hc', hok⟩

/-- Master invariant: every successful `get_all_pairs` call returns a
collection satisfying all the pair invariants. -/
theorem getAllPairs_good {m : Matcher} {sameby diffby : ColSpec} {res : Pairs}
    (h : getAllPairs m sameby diffby = .ok res) : goodPairs res := by
  rw [getAllPairs] at h
  split at h
  · simp at h
  · split at h
    · simp at h
    · rename_i sAll sAny hnorms dAll dAny hnormd
      split at h
      · simp at h
      · split at h
        · simp at h
        · split at h
          · simp at h
          · split at h
            · -- sameby empty: the diffby-only cases
              split at h
              · exact onlyDiffbyAll_good h
              · split at h
                · exact onlyDiffbyAny_good h
                · exact onlyDiffbyAllAny_good h
            · -- sameby present
              split at h
              · simp at h
              · rename_i base hbase
                split at h
                · cases h
                  exact samebyBase_good hbase
                · split at h
                  · -- keys filtered by the sameby-any representative check
                    split at h
                    · simp at h
                    · exact goodPairs_sublist (keepKeys_sublist h) (samebyBase_good hbase)
                  · -- union of per-column representatives
                    split at h
                    · simp at h
                    · rename_i colRes hcolRes
                      cases h
                      refine goodPairs_of_loHi ?_ ?_
                      · intro kl hkl p hp
                        rcases List.mem_cons.1 hkl with rfl | hkl
                        · simp only at hp
                          rcases List.mem_flatMap.1 (mem_sortDedupPairs.1 hp)
                            with ⟨cr, hcr, hpcr⟩
                          rcases List.mem_map.1 hpcr with ⟨kv, hkv, rfl⟩
                          rcases anySingles_mem hcolRes cr hcr with ⟨c, _, hok⟩
                          have hne := (getAllPairsSingle_mem hok kv hkv).1
                          exact (getAllPairsSingle_pairs hok kv hkv _
                            (headD_mem hne (0, 0))).1
                        · cases hkl
                      · intro kl hkl
                        rcases List.mem_cons.1 hkl with rfl | hkl
                        · exact nodup_sortDedupPairs _
                        · cases hkl

/-- C3: for every accepted call to `Matcher.get_all_pairs`, every emitted
pair `(id1, id2)` has `id1 ≠ id2`, the emitted collection never contains
both `(a, b)` and `(b, a)` (across all keys), and no key's list repeats a
pair. -/
theorem claim_C3_no_self_dup_sym_pairs {m : Matcher} {sameby diffby : ColSpec}
    {res : Pairs} (h : getAllPairs m sameby diffby = .ok res) :
    (∀ kl ∈ res, ∀ p ∈ kl.2, p.1 ≠ p.2) ∧
    (∀ kl ∈ res, ∀ kl' ∈ res, ∀ p ∈ kl.2, (p.2, p.1) ∉ kl'.2) ∧
    (∀ kl ∈ res, kl.2.Nodup) := by
  rcases getAllPairs_good h with ⟨g1, g2, g3⟩
  exact ⟨g2, g3, g1⟩

/-- Witness for C3 at the Scenario-A call. -/
theorem claim_C3_no_self_dup_sym_pairs_witness :
    (∀ kl ∈ [(PKey.v 10, [(0, 1)]), (PKey.v 20, [(2, 3)])], ∀ p ∈ kl.2, p.1 ≠ p.2) ∧
    (∀ kl ∈ [(PKey.v 10, [(0, 1)]), (PKey.v 20, [(2, 3)])],
      ∀ kl' ∈ [(PKey.v 10, [(0, 1)]), (PKey.v 20, [(2, 3)])],
      ∀ p ∈ kl.2, (p.2, p.1) ∉ kl'.2) ∧
    (∀ kl ∈ [(PKey.v 10, [(0, 1)]), (PKey.v 20, [(2, 3)])], kl.2.Nodup) :=
  claim_C3_no_self_dup_sym_pairs
    (show getAllPairs scenarioA (ColSpec.str "compound") (ColSpec.str "plate") =
      .ok [(PKey.v 10, [(0, 1)]), (PKey.v 20, [(2, 3)])] by decide)

/-- C2: on the Scenario-A dataset, `sameby="compound"`, `diffby="plate"`
returns exactly `{X: [(0, 1)], Y: [(2, 3)]}` (X = 10, Y = 20): one pair per
compound group, each differing on plate, keyed by the compound value. -/
theorem claim_C2_scenarioA :
    getAllPairs scenarioA (.str "compound") (.str "plate") =
      .ok [(PKey.v 10, [(0, 1)]), (PKey.v 20, [(2, 3)])] := by decide

/-- C1: the source checks only the intersection of ALL FOUR column sets
(`set(sameby_all) & set(sameby_any) & set(diffby_all) & set(diffby_any)`),
so the overlapping specification `sameby="compound", diffby="compound"` is
ACCEPTED (silently returning an empty result) although the specification
and the code's own error message require rejection; only a column present
in all four sets at once triggers the error. -/
theorem claim_C1_overlap_not_rejected :
    getAllPairs scenarioA (.str "compound") (.str "compound") = .ok [] ∧
    getAllPairs scenarioA (.dct ["compound"] ["compound", "plate"])
      (.dct ["compound"] ["compound", "plate"]) = .error .notDisjoint := by decide

/-- C4: for a probe row that is null in every diffby-any column, the
filter's `set.intersection(*mapped)` receives no arguments and raises a
`TypeError` instead of imposing no constraint; a row with at least one
non-null diffby-any value is filtered as specified. -/
theorem claim_C4_all_null_diffby_any_crashes :
    filterDiffby nullRowFrame 0 [] ["a", "b"] [1] = .error .typeError ∧
    filterDiffby nullRowFrame 1 [] ["a", "b"] [0] = .ok [0] := by decide

/-- C5 counterexample: `rng.choice(elems, max_size)` samples WITH
replacement (the numpy default), so for the group `[10, 20, 30]` clipped
to size 2 a random stream repeating the first index yields `[10, 10]`:
not two distinct row identifiers, hence not a size-2 subset of the group. -/
theorem claim_C5_counterexample :
    clipList (fun _ => 0) 10 (some 2) [10, 20, 30] = [10, 10] ∧
    ¬ (clipList (fun _ => 0) 10 (some 2) [10, 20, 30]).Nodup := by decide

/-- C5 (amended): an oversized group is replaced by exactly `max_size`
draws made with replacement, each drawn from the group (so the set of
distinct surviving identifiers is a subset of the group of size at most
`max_size`, not necessarily exactly `max_size`). -/
theorem claim_C5_clip_with_replacement (u : Nat → Nat) (den ms : Nat)
    (elems : List Nat) (hu : ∀ t, u t < den) (hms : ms ≠ 0)
    (hlt : ms < elems.length) :
    (clipList u den (some ms) elems).length = ms ∧
    ∀ x ∈ clipList u den (some ms) elems, x ∈ elems := by
  have hcond : ms ≠ 0 ∧ ms < elems.length := ⟨hms, hlt⟩
  rw [clipList, if_pos hcond]
  constructor
  · rw [List.length_map, List.length_range]
  · intro x hx
    rcases List.mem_map.1 hx with ⟨t, _, rfl⟩
    have hlen : 0 < elems.length := by omega
    have h1 : u t * elems.length < den * elems.length :=
      mul_lt_mul_of_pos_right (hu t) hlen
    have hidx : drawInt (u t) den elems.length < elems.length := by
      rw [drawInt]
      exact Nat.div_lt_of_lt_mul h1
    rw [List.getD_eq_getElem _ _ hidx]
    exact List.getElem_mem hidx

/-- Witness for the amended C5. -/
theorem claim_C5_clip_with_replacement_witness :
    (clipList (fun _ => 0) 10 (some 2) [10, 20, 30]).length = 2 ∧
    ∀ x ∈ clipList (fun _ => 0) 10 (some 2) [10, 20, 30], x ∈ [10, 20, 30] :=
  claim_C5_clip_with_replacement (fun _ => 0) 10 2 [10, 20, 30]
    (fun _ => Nat.succ_pos 9) (by decide) (by decide)

/-- C9 counterexample: pandas `groupby` drops null keys, so a row whose
cell is null appears in NO value-set of the reverse index; the union of
all value-sets is then not the full row-identifier set, refuting the
claim on a one-row frame with a null cell. -/
theorem claim_C9_counterexample :
    ¬ ∀ i, i < nRows nullCellFrame →
      ∃ kv ∈ reverseIndexM nullCellFrame "c", i ∈ kv.2 := by decide

/-- C9 (amended): the value-sets of a column's reverse index are pairwise
disjoint, every member of the value-set of `v` is a row holding `v`, and a
row belongs to some value-set exactly when its cell is non-null (rows with
a null cell in the column belong to no value-set). -/
theorem claim_C9_reverse_index_partition (m : Matcher) (c : String) :
    (∀ kv ∈ reverseIndexM m c, ∀ kv' ∈ reverseIndexM m c,
      ∀ i, i ∈ kv.2 → i ∈ kv'.2 → kv = kv') ∧
    (∀ kv ∈ reverseIndexM m c, ∀ i ∈ kv.2, i < nRows m ∧ cellAt m i c = some kv.1) ∧
    (∀ i, i < nRows m → (cellAt m i c ≠ none ↔
      ∃ kv ∈ reverseIndexM m c, i ∈ kv.2)) := by
  have hmem : ∀ kv ∈ reverseIndexM m c, ∀ i ∈ kv.2,
      i < nRows m ∧ cellAt m i c = some kv.1 := by
    intro kv hkv i hi
    rcases mem_reverseIndexM hkv with ⟨_, hg⟩
    rw [hg] at hi
    exact mem_groupRows.1 hi
  refine ⟨?_, hmem, ?_⟩
  · intro kv hkv kv' hkv' i hi hi'
    have h1 := (hmem kv hkv i hi).2
    have h2 := (hmem kv' hkv' i hi').2
    rw [h1] at h2
    have hk : kv.1 = kv'.1 := by injection h2
    rcases mem_reverseIndexM hkv with ⟨_, hg⟩
    rcases mem_reverseIndexM hkv' with ⟨_, hg'⟩
    have : kv.2 = kv'.2 := by rw [hg, hg', hk]
    exact Prod.ext hk this
  · intro i hi
    constructor
    · intro hnn
      rcases hcell : cellAt m i c with _ | v
      · exact absurd hcell hnn
      · refine ⟨(v, groupRows m c v), ?_, ?_⟩
        · rw [reverseIndexM]
          exact List.mem_map.2 ⟨v, mem_keysOf.2 ⟨i, hi, hcell⟩, rfl⟩
        · exact mem_groupRows.2 ⟨hi, hcell⟩
    · rintro ⟨kv, hkv, hikv⟩
      rw [(hmem kv hkv i hikv).2]
      simp

/-- Witness for the amended C9 on Scenario A. -/
theorem claim_C9_reverse_index_partition_witness :
    cellAt scenarioA 0 "compound" ≠ none ↔
      ∃ kv ∈ reverseIndexM scenarioA "compound", 0 ∈ kv.2 :=
  (claim_C9_reverse_index_partition scenarioA "compound").2.2 0 (by decide)

/-- C10: for a single-string sameby column, every key of the returned
mapping is a value of that column's reverse index and carries a non-empty
pair list. -/
theorem claim_C10_single_sameby_keys {m : Matcher} {c : String} {diffby : ColSpec}
    {res : Pairs} (h : getAllPairs m (.str c) diffby = .ok res) :
    ∀ kv ∈ res, (∃ v, kv.1 = PKey.v v ∧ v ∈ keysOf m c) ∧ kv.2 ≠ [] := by
  rw [getAllPairs] at h
  simp only [normSpec] at h
  split at h
  · simp at h
  · rename_i dAll dAny hnormd
    split at h
    · simp at h
    · split at h
      · simp at h
      · split at h
        · simp at h
        · split at h
          · rename_i hemp
            simp at hemp
          · split at h
            · simp at h
            · rename_i base hbase
              split at h
              · cases h
                rw [samebyBase] at hbase
                split at hbase
                · rename_i hemp
                  simp at hemp
                · split at hbase
                  · split at hbase
                    · simp at hbase
                    · cases hbase
                      rename_i entries hsingle
                      intro kv hkv
                      rcases List.mem_map.1 hkv with ⟨kv0, hkv0, rfl⟩
                      rcases getAllPairsSingle_mem hsingle kv0 hkv0 with ⟨hne, hkey, _⟩
                      exact ⟨⟨kv0.1, rfl, hkey⟩, hne⟩
                  · rename_i hlen
                    simp at hlen
              · rename_i hany
                simp at hany

/-- Witness for C10 at the Scenario-A call, on its first returned entry. -/
theorem claim_C10_single_sameby_keys_witness :
    (∃ v, PKey.v 10 = PKey.v v ∧ v ∈ keysOf scenarioA "compound") ∧
      ([(0, 1)] : List (Nat × Nat)) ≠ [] :=
  claim_C10_single_sameby_keys
    (show getAllPairs scenarioA (ColSpec.str "compound") (ColSpec.str "plate") =
      .ok [(PKey.v 10, [(0, 1)]), (PKey.v 20, [(2, 3)])] by decide)
    (PKey.v 10, [(0, 1)]) (by decide)

/-! ## Lemmas: the retry loop of the null sampler -/

theorem triesStates_shift (src : Nat → Nat) (den B : Nat) (m : Matcher)
    (dAll dAny : List String) (st : RState) (i : Nat) :
    triesStates src den B m dAll dAny st (i + 1) =
      triesStates src den B m dAll dAny
        (nullSample src den B m dAll dAny st).2 i := by
  induction i with
  | zero => rfl
  | succ k ih =>
    rw [triesStates, ih]
    rfl

theorem tryRes_shift (src : Nat → Nat) (den B : Nat) (m : Matcher)
    (dAll dAny : List String) (st : RState) (i : Nat) :
    tryRes src den B m dAll dAny st (i + 1) =
      tryRes src den B m dAll dAny (nullSample src den B m dAll dAny st).2 i := by
  rw [tryRes, tryRes, triesStates_shift]

theorem sampleNullTries_all_fail (src : Nat → Nat) (den B : Nat) (m : Matcher)
    (dAll dAny : List String) :
    ∀ (n : Nat) (st : RState),
      (∀ i, i < n → tryRes src den B m dAll dAny st i = .error .unpaired) →
      sampleNullTries src den B m dAll dAny n st =
        (.error .triesExhausted, triesStates src den B m dAll dAny st n) := by
  intro n
  induction n with
  | zero =>
    intro st _
    rfl
  | succ k ih =>
    intro st hfail
    have h0 : (nullSample src den B m dAll dAny st).1 = .error .unpaired :=
      hfail 0 (Nat.succ_pos k)
    rw [sampleNullTries]
    rcases hns : nullSample src den B m dAll dAny st with ⟨r, st'⟩
    rw [hns] at h0
    simp only at h0
    subst h0
    have hnext : ∀ i, i < k → tryRes src den B m dAll dAny st' i = .error .unpaired := by
      intro i hi
      have := hfail (i + 1) (by omega)
      rw [tryRes_shift, hns] at this
      exact this
    have hstates : triesStates src den B m dAll dAny st (k + 1) =
        triesStates src den B m dAll dAny st' k := by
      rw [triesStates_shift, hns]
    rw [hstates]
    exact ih st' hnext

theorem sampleNullTries_first_success (src : Nat → Nat) (den B : Nat) (m : Matcher)
    (dAll dAny : List String) :
    ∀ (r n : Nat) (st : RState) (p : Nat × Nat), r < n →
      (∀ i, i < r → tryRes src den B m dAll dAny st i = .error .unpaired) →
      tryRes src den B m dAll dAny st r = .ok p →
      sampleNullTries src den B m dAll dAny n st =
        (.ok p, triesStates src den B m dAll dAny st (r + 1)) := by
  intro r
  induction r with
  | zero =>
    intro n st p hn _ hok
    rcases n with _ | k
    · omega
    · rw [sampleNullTries]
      rcases hns : nullSample src den B m dAll dAny st with ⟨res, st'⟩
      have : res = .ok p := by
        rw [tryRes, triesStates, hns] at hok
        exact hok
      subst this
      have : triesStates src den B m dAll dAny st 1 = st' := by
        rw [triesStates, triesStates, hns]
      rw [this]
  | succ r' ih =>
    intro n st p hn hfail hok
    rcases n with _ | k
    · omega
    · have h0 : (nullSample src den B m dAll dAny st).1 = .error .unpaired :=
        hfail 0 (Nat.succ_pos r')
      rw [sampleNullTries]
      rcases hns : nullSample src den B m dAll dAny st with ⟨res, st'⟩
      rw [hns] at h0
      simp only at h0
      subst h0
      have hnext : ∀ i, i < r' → tryRes src den B m dAll dAny st' i = .error .unpaired := by
        intro i hi
        have := hfail (i + 1) (by omega)
        rw [tryRes_shift, hns] at this
        exact this
      have hok' : tryRes src den B m dAll dAny st' r' = .ok p := by
        rw [tryRes_shift, hns] at hok
        exact hok
      have hstates : triesStates src den B m dAll dAny st (r' + 2) =
          triesStates src den B m dAll dAny st' (r' + 1) := by
        rw [triesStates_shift, hns]
      rw [hstates]
      exact ih k st' p (by omega) hnext hok'

/-- C6: the null-pair sampler retries the entire draw (advancing the random
state, hence redrawing `id1`) up to `n_tries` times while attempts raise the
internal unpaired signal; only when all `n_tries` attempts fail does it
raise the terminal exhaustion error (a value distinct from every
specification error), and the first successful attempt's pair is returned
even when earlier attempts failed. -/
theorem claim_C6_retry_loop (src : Nat → Nat) (den B : Nat) (m : Matcher)
    (diffby : ColSpec) (dAll dAny : List String) (n : Nat) (st : RState)
    (hnorm : normSpec diffby = .ok (dAll, dAny)) :
    ((∀ i, i < n → tryRes src den B m dAll dAny st i = .error .unpaired) →
      sampleNullPair src den B m diffby n st =
        (.error .triesExhausted, triesStates src den B m dAll dAny st n)) ∧
    (∀ r p, r < n →
      (∀ i, i < r → tryRes src den B m dAll dAny st i = .error .unpaired) →
      tryRes src den B m dAll dAny st r = .ok p →
      sampleNullPair src den B m diffby n st =
        (.ok p, triesStates src den B m dAll dAny st (r + 1))) ∧
    (MErr.triesExhausted ≠ MErr.anyOfOne ∧ MErr.triesExhausted ≠ MErr.notDisjoint ∧
      MErr.triesExhausted ≠ MErr.noColumns ∧ MErr.triesExhausted ≠ MErr.missingColumns) := by
  have hpair : sampleNullPair src den B m diffby n st =
      sampleNullTries src den B m dAll dAny n st := by
    rw [sampleNullPair, hnorm]
  refine ⟨?_, ?_, by decide⟩
  · intro hfail
    rw [hpair]
    exact sampleNullTries_all_fail src den B m dAll dAny n st hfail
  · intro r p hr hfail hok
    rw [hpair]
    exact sampleNullTries_first_success src den B m dAll dAny r n st p hr hfail hok

/-- Witness for C6: the first attempt fails, the second succeeds, and the
call returns the second attempt's pair instead of an error. -/
theorem claim_C6_retry_loop_witness :
    sampleNullPair retrySrc 10 5 retryFrame (ColSpec.list ["a", "b"]) 5 initR =
      (.ok (1, 2), RState.mk 5 [0, 0]) := by
  have h := (claim_C6_retry_loop retrySrc 10 5 retryFrame (ColSpec.list ["a", "b"])
    ["a", "b"] [] 5 initR rfl).2.1
  have happ := h 1 (1, 2) (by decide) (by decide) (by decide)
  rw [happ]
  decide

/-! ## Lemmas: batch refills are transparent -/

theorem range_map_succ (src : Nat → Nat) (n k : Nat) :
    (List.range (k + 1)).map (fun i => src (n + i)) =
      src n :: (List.range k).map (fun i => src ((n + 1) + i)) := by
  rw [List.range_succ_eq_map, List.map_cons, List.map_map, Nat.add_zero]
  refine congrArg (List.cons (src n)) ?_
  apply List.map_congr_left
  intro i _
  simp only [Function.comp_apply]
  congr 1
  omega

theorem goodR_initR (src : Nat → Nat) : GoodR src initR 0 := by
  constructor <;> rfl

theorem randNext_goodR {src : Nat → Nat} {B : Nat} {st : RState} {n : Nat}
    (hB : 0 < B) (h : GoodR src st n) :
    (randNext src B st).1 = src n ∧ GoodR src (randNext src B st).2 (n + 1) := by
  rcases st with ⟨pos, buf⟩
  rcases h with ⟨hpos, hbuf⟩
  simp only at hpos hbuf
  cases buf with
  | nil =>
    have hp : n = pos := by
      simp only [List.length_nil, Nat.add_zero] at hpos
      exact hpos.symm
    subst hp
    rcases B with _ | B'
    · omega
    · have hr : (List.range (B' + 1)).map (fun i => src (n + i)) =
          src n :: (List.range B').map (fun i => src ((n + 1) + i)) :=
        range_map_succ src n B'
      constructor
      · simp only [randNext, hr]
      · simp only [randNext, hr]
        refine ⟨?_, ?_⟩
        · simp only [List.length_map, List.length_range]
          omega
        · simp only [List.length_map, List.length_range]
  | cons x rest =>
    simp only [List.length_cons] at hbuf
    rw [range_map_succ] at hbuf
    injection hbuf with h1 h2
    constructor
    · simp only [randNext]
      exact h1
    · simp only [randNext]
      refine ⟨?_, ?_⟩
      · simp only [List.length_cons] at hpos
        simp only
        omega
      · simpa using h2

theorem nullSample_sim {src : Nat → Nat} {den B : Nat} {m : Matcher}
    {dAll dAny : List String} {st : RState} {n : Nat}
    (hB : 0 < B) (h : GoodR src st n) :
    (nullSample src den B m dAll dAny st).1 = (nullSampleA src den m dAll dAny n).1 ∧
    GoodR src (nullSample src den B m dAll dAny st).2
      (nullSampleA src den m dAll dAny n).2 := by
  rcases randNext_goodR hB h with ⟨h1, hg1⟩
  rw [nullSample, nullSampleA]
  simp only [h1]
  rcases hf : filterDiffby m (drawInt (src n) den (nRows m)) dAll dAny
      ((List.range (nRows m)).filter
        (fun i => decide (i ≠ drawInt (src n) den (nRows m)))) with e | valid
  · exact ⟨by trivial, hg1⟩
  · by_cases hemp : valid.isEmpty
    · simp only [if_pos hemp]
      exact ⟨by trivial, hg1⟩
    · simp only [if_neg hemp]
      rcases randNext_goodR hB hg1 with ⟨h2, hg2⟩
      simp only [h2]
      exact ⟨by trivial, hg2⟩

theorem sampleTries_sim {src : Nat → Nat} {den B : Nat} {m : Matcher}
    {dAll dAny : List String} (hB : 0 < B) :
    ∀ (k : Nat) (st : RState) (n : Nat), GoodR src st n →
      (sampleNullTries src den B m dAll dAny k st).1 =
        (sampleTriesA src den m dAll dAny k n).1 ∧
      GoodR src (sampleNullTries src den B m dAll dAny k st).2
        (sampleTriesA src den m dAll dAny k n).2 := by
  intro k
  induction k with
  | zero =>
    intro st n h
    exact ⟨rfl, h⟩
  | succ k' ih =>
    intro st n h
    rcases nullSample_sim hB h with ⟨hv, hg⟩
    rw [sampleNullTries, sampleTriesA]
    rcases hc : nullSample src den B m dAll dAny st with ⟨r, st'⟩
    rcases ha : nullSampleA src den m dAll dAny n with ⟨rA, nA⟩
    rw [hc, ha] at hv hg
    simp only at hv hg
    subst hv
    cases r with
    | ok p => exact ⟨rfl, hg⟩
    | error e =>
      cases e with
      | unpaired => exact ih st' nA hg
      | anyOfOne => exact ⟨rfl, hg⟩
      | notDisjoint => exact ⟨rfl, hg⟩
      | noColumns => exact ⟨rfl, hg⟩
      | missingColumns => exact ⟨rfl, hg⟩
      | triesExhausted => exact ⟨rfl, hg⟩
      | typeError => exact ⟨rfl, hg⟩
      | numpyError => exact ⟨rfl, hg⟩

theorem sampleNullPair_sim {src : Nat → Nat} {den B : Nat} {m : Matcher}
    {diffby : ColSpec} {nt : Nat} {st : RState} {n : Nat}
    (hB : 0 < B) (h : GoodR src st n) :
    (sampleNullPair src den B m diffby nt st).1 =
      (sampleNullPairA src den m diffby nt n).1 ∧
    GoodR src (sampleNullPair src den B m diffby nt st).2
      (sampleNullPairA src den m diffby nt n).2 := by
  rw [sampleNullPair, sampleNullPairA]
  rcases hn : normSpec diffby with e | ⟨dAll, dAny⟩
  · exact ⟨rfl, h⟩
  · exact sampleTries_sim hB nt st n h

theorem runSeq_sim {src : Nat → Nat} {den B : Nat} {m : Matcher}
    (hB : 0 < B) :
    ∀ (cs : List MCall) (st : RState) (n : Nat), GoodR src st n →
      runSeq src den B m cs st = runSeqA src den m cs n := by
  intro cs
  induction cs with
  | nil =>
    intro st n _
    rfl
  | cons c rest ih =>
    intro st n h
    cases c with
    | sample diffby nTries =>
      rcases sampleNullPair_sim hB h with ⟨hv, hg⟩
      rw [runSeq, runSeqA, hv, ih _ _ hg]
    | allPairs sameby diffby =>
      rw [runSeq, runSeqA, ih _ _ h]

/-! ## Null-sampling satisfies the diffby constraint -/

theorem nullSampleA_ok_diffby {src : Nat → Nat} {den : Nat} {m : Matcher}
    {dAll dAny : List String} {n n' : Nat} {i1 i2 : Nat}
    (hden : 0 < den) (hsrc : ∀ t, src t < den)
    (h : nullSampleA src den m dAll dAny n = (.ok (i1, i2), n')) :
    (∀ c ∈ dAll, ∀ v w, cellAt m i1 c = some v → cellAt m i2 c = some w → v ≠ w) ∧
    (dAny ≠ [] → ∃ c ∈ dAny, ∃ v, cellAt m i1 c = some v ∧ cellAt m i2 c ≠ some v) := by
  rw [nullSampleA] at h
  split at h
  · simp at h
  · rename_i valid hf
    split at h
    · simp at h
    · rename_i hemp
      simp only [Prod.mk.injEq, Except.ok.injEq] at h
      rcases h with ⟨⟨hi1, hi2⟩, _⟩
      have hvne : valid ≠ [] := by
        intro hv
        rw [hv] at hemp
        exact hemp rfl
      have hlen : 0 < valid.length := List.length_pos.2 hvne
      have hidx : drawInt (src (n + 1)) den valid.length < valid.length := by
        rw [drawInt]
        exact Nat.div_lt_of_lt_mul (mul_lt_mul_of_pos_right (hsrc (n + 1)) hlen)
      have hmem : i2 ∈ valid := by
        rw [← hi2, List.getD_eq_getElem _ _ hidx]
        exact List.getElem_mem hidx
      subst hi1
      constructor
      · intro c hc v w hv hw heq
        subst heq
        have hnotin := mem_filterDiffby_all hf hmem c hc v hv
        apply hnotin
        rw [lookupG_eq_groupRows
          (mem_keysOf.2 ⟨_, cellAt_lt_of_some hv, hv⟩)]
        exact mem_groupRows.2 ⟨cellAt_lt_of_some hw, hw⟩
      · intro hne
        rcases mem_filterDiffby_any hf hne hmem with ⟨c, hc, v, hv, hnotin⟩
        refine ⟨c, hc, v, hv, ?_⟩
        intro heq
        apply hnotin
        rw [lookupG_eq_groupRows
          (mem_keysOf.2 ⟨_, cellAt_lt_of_some hv, hv⟩)]
        exact mem_groupRows.2 ⟨cellAt_lt_of_some heq, heq⟩

theorem sampleTriesA_ok_diffby {src : Nat → Nat} {den : Nat} {m : Matcher}
    {dAll dAny : List String} (hden : 0 < den) (hsrc : ∀ t, src t < den) :
    ∀ (k n n' : Nat) (i1 i2 : Nat),
      sampleTriesA src den m dAll dAny k n = (.ok (i1, i2), n') →
      (∀ c ∈ dAll, ∀ v w, cellAt m i1 c = some v → cellAt m i2 c = some w → v ≠ w) ∧
      (dAny ≠ [] → ∃ c ∈ dAny, ∃ v, cellAt m i1 c = some v ∧ cellAt m i2 c ≠ some v) := by
  intro k
  induction k with
  | zero =>
    intro n n' i1 i2 h
    rw [sampleTriesA] at h
    simp at h
  | succ k' ih =>
    intro n n' i1 i2 h
    rw [sampleTriesA] at h
    rcases ha : nullSampleA src den m dAll dAny n with ⟨rA, nA⟩
    rw [ha] at h
    cases rA with
    | ok p =>
      simp only at h
      have hp : p = (i1, i2) := by
        have := congrArg Prod.fst h
        simpa using this
      subst hp
      exact nullSampleA_ok_diffby hden hsrc ha
    | error e =>
      cases e with
      | unpaired => exact ih nA n' i1 i2 h
      | anyOfOne => simp at h
      | notDisjoint => simp at h
      | noColumns => simp at h
      | missingColumns => simp at h
      | triesExhausted => simp at h
      | typeError => simp at h
      | numpyError => simp at h

/-- C7: with the same seeded uniform stream, the results of a call sequence
do not depend on the internal batch size of the random source (batch
refills are transparent, so two matcher instances built from the same seed
return bit-for-bit identical sequences of pairs), and every pair returned
by `sample_null_pair` satisfies the diffby constraint: for every diffby-all
column the two rows' non-null values differ, and (when a diffby-any group
is given) some diffby-any column has a non-null probe value the partner
does not share. -/
theorem claim_C7_seed_reproducibility (src : Nat → Nat) (den : Nat) (m : Matcher)
    (cs : List MCall) (B1 B2 : Nat) (hB1 : 0 < B1) (hB2 : 0 < B2)
    (hden : 0 < den) (hsrc : ∀ t, src t < den) :
    runSeq src den B1 m cs initR = runSeq src den B2 m cs initR ∧
    (∀ (diffby : ColSpec) (dAll dAny : List String) (nt : Nat) (st : RState)
      (n : Nat) (i1 i2 : Nat) (st' : RState),
      GoodR src st n →
      normSpec diffby = .ok (dAll, dAny) →
      sampleNullPair src den B1 m diffby nt st = (.ok (i1, i2), st') →
      (∀ c ∈ dAll, ∀ v w, cellAt m i1 c = some v → cellAt m i2 c = some w → v ≠ w) ∧
      (dAny ≠ [] → ∃ c ∈ dAny, ∃ v, cellAt m i1 c = some v ∧ cellAt m i2 c ≠ some v)) := by
  constructor
  · rw [runSeq_sim hB1 cs initR 0 (goodR_initR src),
      runSeq_sim hB2 cs initR 0 (goodR_initR src)]
  · intro diffby dAll dAny nt st n i1 i2 st' hgood hnorm hcall
    have hsim := (@sampleNullPair_sim src den B1 m diffby nt st n hB1 hgood).1
    rw [hcall] at hsim
    simp only at hsim
    rw [sampleNullPairA, hnorm] at hsim
    have hsim' : Except.ok (i1, i2) = (sampleTriesA src den m dAll dAny nt n).1 := hsim
    rcases ha : sampleTriesA src den m dAll dAny nt n with ⟨rA, nA⟩
    rw [ha] at hsim'
    have hrA : rA = .ok (i1, i2) := hsim'.symm
    exact sampleTriesA_ok_diffby hden hsrc nt n nA i1 i2 (by rw [ha, hrA])

/-- Witness for C7: batch sizes 1 and 3 produce identical output sequences
on Scenario A. -/
theorem claim_C7_seed_reproducibility_witness :
    runSeq repSrc 10 1 scenarioA repCalls initR =
      runSeq repSrc 10 3 scenarioA repCalls initR :=
  (claim_C7_seed_reproducibility repSrc 10 scenarioA repCalls 1 3
    (by decide) (by decide) (by decide) (fun t => by norm_num [repSrc])).1

/-! ## Lemmas: the exploded frame -/

theorem explodeRow_length (mlIx : Nat) (r : List Cell) (ls : List Val) :
    (explodeRow mlIx r ls).length = explCount ls := by
  cases ls with
  | nil => rfl
  | cons x xs => simp [explodeRow, explCount]

theorem getD_set_lt {l : List Cell} {i : Nat} (x : Cell) (h : i < l.length) :
    (l.set i x).getD i none = x := by
  rw [List.getD_eq_getElem _ _ (by simpa using h)]
  exact List.getElem_set_self _

theorem getD_set_none (l : List Cell) (i : Nat) :
    (l.set i none).getD i none = none := by
  by_cases h : i < l.length
  · exact getD_set_lt none h
  · rw [List.getD_eq_default]
    simpa using h

/-- Structure of the exploded frame: positions of the flattened explosion
correspond one block per original row, aligned with the back-reference
list. -/
theorem explode_spec (mlIx : Nat) :
    ∀ (cs : List (List Cell)) (ls : List (List Val)) (n0 : Nat),
      cs.length = ls.length →
      ((cs.zip ls).flatMap (fun rl => explodeRow mlIx rl.1 rl.2)).length =
        (((List.range' n0 ls.length).zip ls).flatMap
          (fun il => List.replicate (explCount il.2) il.1)).length ∧
      (∀ e, e < ((cs.zip ls).flatMap (fun rl => explodeRow mlIx rl.1 rl.2)).length →
        ∃ idx, idx < ls.length ∧
          (((List.range' n0 ls.length).zip ls).flatMap
            (fun il => List.replicate (explCount il.2) il.1)).getD e 0 = n0 + idx ∧
          ((cs.zip ls).flatMap (fun rl => explodeRow mlIx rl.1 rl.2)).getD e [] ∈
            explodeRow mlIx (cs.getD idx []) (ls.getD idx [])) ∧
      (∀ idx r, idx < ls.length →
        r ∈ explodeRow mlIx (cs.getD idx []) (ls.getD idx []) →
        ∃ e, e < ((cs.zip ls).flatMap (fun rl => explodeRow mlIx rl.1 rl.2)).length ∧
          ((cs.zip ls).flatMap (fun rl => explodeRow mlIx rl.1 rl.2)).getD e [] = r ∧
          (((List.range' n0 ls.length).zip ls).flatMap
            (fun il => List.replicate (explCount il.2) il.1)).getD e 0 = n0 + idx) := by
  intro cs
  induction cs with
  | nil =>
    intro ls n0 hlen
    have hls : ls = [] := by
      cases ls with
      | nil => rfl
      | cons l ls' => simp at hlen
    subst hls
    refine ⟨rfl, ?_, ?_⟩
    · intro e he
      simp at he
    · intro idx r hidx
      simp at hidx
  | cons c cs' ih =>
    intro ls n0 hlen
    cases ls with
    | nil => simp at hlen
    | cons l ls' =>
      simp only [List.length_cons, Nat.add_right_cancel_iff] at hlen
      have hrange : List.range' n0 (ls'.length + 1) = n0 :: List.range' (n0 + 1) ls'.length :=
        List.range'_succ n0 ls'.length 1
      rcases ih ls' (n0 + 1) hlen with ⟨ihlen, ihfwd, ihbwd⟩
      constructor
      · simp only [List.zip_cons_cons, List.length_cons, hrange, List.flatMap_cons,
          List.length_append, explodeRow_length, List.length_replicate, ihlen]
      · constructor
        · -- forward
          intro e he
          simp only [List.zip_cons_cons, List.flatMap_cons, List.length_append,
            explodeRow_length] at he
          by_cases hcase : e < explCount l
          · refine ⟨0, Nat.succ_pos _, ?_, ?_⟩
            · simp only [List.length_cons, hrange, List.zip_cons_cons, List.flatMap_cons]
              rw [List.getD_append _ _ _ _ (by simpa using hcase), Nat.add_zero]
              rw [List.getD_eq_getElem _ _ (by simpa using hcase)]
              simp
            · simp only [List.zip_cons_cons, List.flatMap_cons]
              rw [List.getD_append _ _ _ _ (by rw [explodeRow_length]; exact hcase)]
              simp only [List.getD_cons_zero]
              rw [List.getD_eq_getElem _ _ (by rw [explodeRow_length]; exact hcase)]
              exact List.getElem_mem _
          · push_neg at hcase
            have he' : e - explCount l <
                ((cs'.zip ls').flatMap (fun rl => explodeRow mlIx rl.1 rl.2)).length := by
              omega
            rcases ihfwd (e - explCount l) he' with ⟨idx, hidx, hO, hE⟩
            refine ⟨idx + 1, by simp only [List.length_cons]; omega, ?_, ?_⟩
            · simp only [List.length_cons, hrange, List.zip_cons_cons, List.flatMap_cons]
              rw [List.getD_append_right _ _ _ _ (by simpa using hcase)]
              simp only [List.length_replicate]
              rw [hO]
              omega
            · simp only [List.zip_cons_cons, List.flatMap_cons]
              rw [List.getD_append_right _ _ _ _ (by rw [explodeRow_length]; exact hcase)]
              rw [explodeRow_length]
              simpa using hE
        · -- backward
          intro idx r hidx hr
          cases idx with
          | zero =>
            simp only [List.getD_cons_zero] at hr
            rcases List.mem_iff_getElem.1 hr with ⟨j, hj, hget⟩
            refine ⟨j, ?_, ?_, ?_⟩
            · simp only [List.zip_cons_cons, List.flatMap_cons, List.length_append]
              omega
            · simp only [List.zip_cons_cons, List.flatMap_cons]
              rw [List.getD_append _ _ _ _ hj, List.getD_eq_getElem _ _ hj]
              exact hget
            · simp only [List.length_cons, hrange, List.zip_cons_cons, List.flatMap_cons]
              rw [List.getD_append _ _ _ _ (by simpa [explodeRow_length] using hj)]
              rw [List.getD_eq_getElem _ _ (by simpa [explodeRow_length] using hj)]
              simp
          | succ idx' =>
            simp only [List.getD_cons_succ] at hr
            have hidx' : idx' < ls'.length := by
              simp only [List.length_cons] at hidx
              omega
            rcases ihbwd idx' r hidx' hr with ⟨e, he, hE, hO⟩
            refine ⟨(explodeRow mlIx c l).length + e, ?_, ?_, ?_⟩
            · simp only [List.zip_cons_cons, List.flatMap_cons, List.length_append]
              omega
            · simp only [List.zip_cons_cons, List.flatMap_cons]
              rw [List.getD_append_right _ _ _ _ (by omega)]
              simpa using hE
            · simp only [List.length_cons, hrange, List.zip_cons_cons, List.flatMap_cons]
              rw [List.getD_append_right _ _ _ _
                (by simp [List.length_replicate, explodeRow_length])]
              simp only [List.length_replicate]
              rw [show (explodeRow mlIx c l).length + e - explCount l = e by
                rw [explodeRow_length]; omega]
              rw [hO]
              omega

/-- Forward characterisation: a non-null multilabel cell of an exploded row
is one of the labels of its original row. -/
theorem explode_char_fwd (inp : MLInput)
    (hlen : inp.cells.length = inp.labels.length)
    (hrow : ∀ r ∈ inp.cells, r.length = inp.cols.length)
    (hml : inp.mlCol ∈ inp.cols) :
    ∀ e, e < nRows (mlMatcher inp) →
      ∀ v, cellAt (mlMatcher inp) e inp.mlCol = some v →
        (origIndex inp).getD e 0 < inp.size ∧
        v ∈ labelsOf inp ((origIndex inp).getD e 0) := by
  intro e he v hv
  rcases explode_spec inp.mlIx inp.cells inp.labels 0 hlen with ⟨_, hfwd, _⟩
  rcases hfwd e he with ⟨idx, hidx, hO, hE⟩
  have horig : (origIndex inp).getD e 0 = idx := by
    have : origIndex inp =
        ((List.range' 0 inp.labels.length).zip inp.labels).flatMap
          (fun il => List.replicate (explCount il.2) il.1) := by
      rw [origIndex]
      rw [show List.range inp.size = List.range' 0 inp.labels.length from
        List.range_eq_range' _]
    rw [this, hO]
    omega
  have hv' : ((((inp.cells.zip inp.labels).flatMap
      (fun rl => explodeRow inp.mlIx rl.1 rl.2)).getD e []).getD inp.mlIx none) = some v := hv
  rw [horig]
  refine ⟨hidx, ?_⟩
  rcases hls : inp.labels.getD idx [] with _ | ⟨x, xs⟩
  · rw [hls] at hE
    rw [show explodeRow inp.mlIx (inp.cells.getD idx []) [] =
        [(inp.cells.getD idx []).set inp.mlIx none] from rfl,
      List.mem_singleton] at hE
    rw [hE, getD_set_none] at hv'
    cases hv'
  · rw [hls] at hE
    have hcr : inp.cells.getD idx [] ∈ inp.cells := by
      have hidx' : idx < inp.cells.length := by rw [hlen]; exact hidx
      rw [List.getD_eq_getElem _ _ hidx']
      exact List.getElem_mem _
    have hmlIx : inp.mlIx < (inp.cells.getD idx []).length := by
      rw [hrow _ hcr]
      exact List.indexOf_lt_length.2 hml
    rw [show explodeRow inp.mlIx (inp.cells.getD idx []) (x :: xs) =
        (x :: xs).map (fun l => (inp.cells.getD idx []).set inp.mlIx (some l)) from rfl,
      List.mem_map] at hE
    rcases hE with ⟨lv, hlv, hset⟩
    rw [← hset, getD_set_lt _ hmlIx] at hv'
    injection hv' with hv''
    rw [labelsOf, hls, ← hv'']
    exact hlv

/-- Backward characterisation: every label of every original row is realised
by some exploded row mapping back to it. -/
theorem explode_char_bwd (inp : MLInput)
    (hlen : inp.cells.length = inp.labels.length)
    (hrow : ∀ r ∈ inp.cells, r.length = inp.cols.length)
    (hml : inp.mlCol ∈ inp.cols) :
    ∀ i v, i < inp.size → v ∈ labelsOf inp i →
      ∃ e, e < nRows (mlMatcher inp) ∧ (origIndex inp).getD e 0 = i ∧
        cellAt (mlMatcher inp) e inp.mlCol = some v := by
  intro i v hi hv
  rcases explode_spec inp.mlIx inp.cells inp.labels 0 hlen with ⟨_, _, hbwd⟩
  have hr : (inp.cells.getD i []).set inp.mlIx (some v) ∈
      explodeRow inp.mlIx (inp.cells.getD i []) (inp.labels.getD i []) := by
    rw [labelsOf] at hv
    rcases hls : inp.labels.getD i [] with _ | ⟨x, xs⟩
    · rw [hls] at hv
      cases hv
    · rw [hls] at hv
      rw [show explodeRow inp.mlIx (inp.cells.getD i []) (x :: xs) =
        (x :: xs).map (fun l => (inp.cells.getD i []).set inp.mlIx (some l)) from rfl,
        List.mem_map]
      exact ⟨v, hv, rfl⟩
  rcases hbwd i _ hi hr with ⟨e, he, hE, hO⟩
  have hcr : inp.cells.getD i [] ∈ inp.cells := by
    have hi' : i < inp.cells.length := by rw [hlen]; exact hi
    rw [List.getD_eq_getElem _ _ hi']
    exact List.getElem_mem _
  have hmlIx : inp.mlIx < (inp.cells.getD i []).length := by
    rw [hrow _ hcr]
    exact List.indexOf_lt_length.2 hml
  refine ⟨e, he, ?_, ?_⟩
  · have : origIndex inp =
        ((List.range' 0 inp.labels.length).zip inp.labels).flatMap
          (fun il => List.replicate (explCount il.2) il.1) := by
      rw [origIndex]
      rw [show List.range inp.size = List.range' 0 inp.labels.length from
        List.range_eq_range' _]
    rw [this, hO]
    omega
  · show (((inp.cells.zip inp.labels).flatMap
      (fun rl => explodeRow inp.mlIx rl.1 rl.2)).getD e []).getD inp.mlIx none = some v
    rw [hE, getD_set_lt _ hmlIx]

/-! ## Lemmas: the single-column call without diffby -/

theorem singleEntries_no_diffby (m : Matcher) :
    ∀ l : List (Val × List Nat),
      singleEntries m [] [] l = .ok (l.map (fun kv => (kv.1, combos2 kv.2)))
  | [] => rfl
  | kv :: rest => by
    rw [singleEntries, pairsFromRows_no_diffby, singleEntries_no_diffby m rest]
    rfl

theorem getAllPairsSingle_no_diffby (m : Matcher) (c : String) :
    getAllPairsSingle m c [] [] =
      .ok (((reverseIndexM m c).map (fun kv => (kv.1, combos2 kv.2))).filter
        (fun e => !e.2.isEmpty)) := by
  rw [getAllPairsSingle, singleEntries_no_diffby]

theorem getAllPairs_str_no_diffby (m : Matcher) (c : String) (hc : c ∈ m.columns) :
    getAllPairs m (.str c) (.list []) =
      .ok ((((reverseIndexM m c).map (fun kv => (kv.1, combos2 kv.2))).filter
        (fun e => !e.2.isEmpty)).map (fun kv => (PKey.v kv.1, kv.2))) := by
  have step1 : getAllPairs m (.str c) (.list []) =
      (if (([c] ++ [] ++ [] ++ []).any fun c' => !(m.columns.contains c')) = true
       then .error .missingColumns
       else match samebyBase m [c] [] [] with
         | .error e => .error e
         | .ok base => .ok base) := rfl
  have step2 : samebyBase m [c] [] [] =
      (match getAllPairsSingle m c [] [] with
       | .error e => .error e
       | .ok entries => .ok (entries.map (fun kv => (PKey.v kv.1, kv.2)))) := rfl
  rw [step1, if_neg (by simp [hc]), step2, getAllPairsSingle_no_diffby]

/-! ## Lemmas: mapping back to original row identifiers -/

theorem mlMapValues_false_eq (inp : MLInput) :
    ∀ es : Pairs, (∀ kv ∈ es, kv.2 ≠ []) →
      mlMapValues inp false es = .ok (es.map (fun kv => (kv.1, kv.2.map (fun p =>
        ((origIndex inp).getD p.1 0, (origIndex inp).getD p.2 0))))) := by
  intro es
  induction es with
  | nil =>
    intro _
    rfl
  | cons kv rest ih =>
    intro hne
    have hkv : kv.2.isEmpty = false := by
      cases h2 : kv.2 with
      | nil => exact absurd h2 (hne kv (List.mem_cons_self _ _))
      | cons _ _ => rfl
    rw [mlMapValues, hkv, ih (fun kv' h' => hne kv' (List.mem_cons_of_mem _ h'))]
    rfl

theorem mlMapValues_true_disjoint (inp : MLInput) :
    ∀ (es res : Pairs), mlMapValues inp true es = .ok res →
      ∀ kv ∈ res, ∀ p ∈ kv.2, labelsOverlap inp p.1 p.2 = false := by
  intro es
  induction es with
  | nil =>
    intro res h kv hkv
    rw [mlMapValues] at h
    cases h
    cases hkv
  | cons kv0 rest ih =>
    intro res h kv hkv p hp
    rw [mlMapValues] at h
    split at h
    · simp at h
    · split at h
      · split at h
        · simp at h
        · rename_i tail htail
          cases h
          rcases List.mem_cons.1 hkv with rfl | hkv'
          · have hmem := List.mem_filter.1 hp
            simpa using hmem.2
          · exact ih tail htail kv hkv' p hp
      · rename_i hfalse
        exact absurd rfl hfalse

/-- The inner matcher's single-column call used by `_only_diffby_multi`,
fully evaluated. -/
theorem mlGeneral_single (inp : MLInput) (hml : inp.mlCol ∈ inp.cols) :
    mlGeneral inp (.str inp.mlCol) [] false = .ok (mlSingleResult inp) := by
  rw [mlGeneral, getAllPairs_str_no_diffby (mlMatcher inp) inp.mlCol hml]
  show mlMapValues inp false
      ((((reverseIndexM (mlMatcher inp) inp.mlCol).map
        (fun kv => (kv.1, combos2 kv.2))).filter
          (fun e => !e.2.isEmpty)).map (fun kv => (PKey.v kv.1, kv.2))) =
    .ok (mlSingleResult inp)
  have hne : ∀ kv ∈ (((reverseIndexM (mlMatcher inp) inp.mlCol).map
      (fun kv => (kv.1, combos2 kv.2))).filter
        (fun e => !e.2.isEmpty)).map (fun kv => (PKey.v kv.1, kv.2)), kv.2 ≠ [] := by
    intro kv hkv
    rcases List.mem_map.1 hkv with ⟨kv0, hkv0, rfl⟩
    have := (List.mem_filter.1 hkv0).2
    intro hemp
    simp only at hemp
    rw [hemp] at this
    simp at this
  rw [mlMapValues_false_eq inp _ hne]
  rw [mlSingleResult, List.map_map]
  rfl

theorem mlOnlyDiffbyMulti_eq (inp : MLInput) (hml : inp.mlCol ∈ inp.cols) :
    mlOnlyDiffbyMulti inp =
      .ok [(PKey.na, (combos2 (List.range inp.size)).filter
        (fun p => decide (p ∉ psetOf inp)))] := by
  rw [mlOnlyDiffbyMulti, mlGeneral_single inp hml]
  rfl

/-- If a value lies in both label sets, the unordered pair overlaps. -/
theorem overlap_minmax (inp : MLInput) {a b : Nat} {v : Val}
    (hva : v ∈ labelsOf inp a) (hvb : v ∈ labelsOf inp b) :
    labelsOverlap inp (min a b) (max a b) = true := by
  have hmin : v ∈ labelsOf inp (min a b) := by
    rcases le_total a b with h | h
    · rw [min_eq_left h]; exact hva
    · rw [min_eq_right h]; exact hvb
  have hmax : v ∈ labelsOf inp (max a b) := by
    rcases le_total a b with h | h
    · rw [max_eq_right h]; exact hvb
    · rw [max_eq_left h]; exact hva
  exact List.any_eq_true.2 ⟨v, hmin, decide_eq_true hmax⟩

/-- Every unordered pair recorded in the `pset` of `_only_diffby_multi`
joins two in-range original rows that share at least one label. -/
theorem psetOf_fwd (inp : MLInput)
    (hlen : inp.cells.length = inp.labels.length)
    (hrow : ∀ r ∈ inp.cells, r.length = inp.cols.length)
    (hml : inp.mlCol ∈ inp.cols) :
    ∀ q ∈ psetOf inp, q.1 < inp.size ∧ q.2 < inp.size ∧
      labelsOverlap inp q.1 q.2 = true := by
  intro q hq
  rw [psetOf] at hq
  rcases List.mem_map.1 hq with ⟨p, hp, rfl⟩
  rcases List.mem_flatMap.1 hp with ⟨kv, hkv, hpkv⟩
  rw [mlSingleResult] at hkv
  rcases List.mem_map.1 hkv with ⟨kv1, hkv1, rfl⟩
  have hkv1f := (List.mem_filter.1 hkv1).1
  rcases List.mem_map.1 hkv1f with ⟨kv0, hkv0, rfl⟩
  rw [reverseIndexM] at hkv0
  rcases List.mem_map.1 hkv0 with ⟨v, hv, rfl⟩
  rcases List.mem_map.1 hpkv with ⟨p0, hp0, rfl⟩
  rcases combos2_mem hp0 with ⟨h1, h2⟩
  rcases mem_groupRows.1 h1 with ⟨he1, hc1⟩
  rcases mem_groupRows.1 h2 with ⟨he2, hc2⟩
  rcases explode_char_fwd inp hlen hrow hml p0.1 he1 v hc1 with ⟨ha, hva⟩
  rcases explode_char_fwd inp hlen hrow hml p0.2 he2 v hc2 with ⟨hb, hvb⟩
  refine ⟨lt_of_le_of_lt (min_le_left _ _) ha, max_lt ha hb, overlap_minmax inp hva hvb⟩

/-- Every in-range strictly ordered pair of original rows sharing a label
is recorded in the `pset` of `_only_diffby_multi`. -/
theorem psetOf_bwd (inp : MLInput)
    (hlen : inp.cells.length = inp.labels.length)
    (hrow : ∀ r ∈ inp.cells, r.length = inp.cols.length)
    (hml : inp.mlCol ∈ inp.cols) :
    ∀ i j, i < j → j < inp.size → labelsOverlap inp i j = true →
      (i, j) ∈ psetOf inp := by
  intro i j hij hj hov
  rcases List.any_eq_true.1 hov with ⟨v, hvi, hvj⟩
  have hvj' := of_decide_eq_true hvj
  rcases explode_char_bwd inp hlen hrow hml i v (hij.trans hj) hvi with ⟨e1, he1, hO1, hC1⟩
  rcases explode_char_bwd inp hlen hrow hml j v hj hvj' with ⟨e2, he2, hO2, hC2⟩
  have hvk : v ∈ keysOf (mlMatcher inp) inp.mlCol := mem_keysOf.2 ⟨e1, he1, hC1⟩
  have hg1 : e1 ∈ groupRows (mlMatcher inp) inp.mlCol v := mem_groupRows.2 ⟨he1, hC1⟩
  have hg2 : e2 ∈ groupRows (mlMatcher inp) inp.mlCol v := mem_groupRows.2 ⟨he2, hC2⟩
  have hne : e1 ≠ e2 := by
    intro h
    rw [h, hO2] at hO1
    omega
  have hc := combos2_complete hg1 hg2 hne
  have hne_emp : (combos2 (groupRows (mlMatcher inp) inp.mlCol v)).isEmpty = false := by
    rcases hc with hc | hc <;>
      (cases hcg : combos2 (groupRows (mlMatcher inp) inp.mlCol v) with
        | nil => rw [hcg] at hc; cases hc
        | cons _ _ => rfl)
  have hkvmem : (PKey.v v, (combos2 (groupRows (mlMatcher inp) inp.mlCol v)).map
      (fun p => ((origIndex inp).getD p.1 0, (origIndex inp).getD p.2 0)))
      ∈ mlSingleResult inp := by
    rw [mlSingleResult]
    apply List.mem_map.2
    refine ⟨(v, combos2 (groupRows (mlMatcher inp) inp.mlCol v)), ?_, rfl⟩
    apply List.mem_filter.2
    constructor
    · apply List.mem_map.2
      refine ⟨(v, groupRows (mlMatcher inp) inp.mlCol v), ?_, rfl⟩
      rw [reverseIndexM]
      exact List.mem_map.2 ⟨v, hvk, rfl⟩
    · show (!(combos2 (groupRows (mlMatcher inp) inp.mlCol v)).isEmpty) = true
      rw [hne_emp]
      rfl
  rw [psetOf]
  rcases hc with hc | hc
  · exact List.mem_map.2 ⟨(i, j),
      List.mem_flatMap.2 ⟨_, hkvmem,
        List.mem_map.2 ⟨(e1, e2), hc, by rw [Prod.ext_iff]; exact ⟨hO1, hO2⟩⟩⟩,
      by simp [min_eq_left hij.le, max_eq_right hij.le]⟩
  · exact List.mem_map.2 ⟨(j, i),
      List.mem_flatMap.2 ⟨_, hkvmem,
        List.mem_map.2 ⟨(e2, e1), hc, by rw [Prod.ext_iff]; exact ⟨hO2, hO1⟩⟩⟩,
      by simp [min_eq_right hij.le, max_eq_left hij.le]⟩

/-- C8: whenever the multilabel column is among the diffby columns, every
pair of original rows emitted by `MatcherMultilabel.get_all_pairs` has
disjoint label sets; and when it is the only diffby target with an empty
sameby, the result is exactly the complement, over all unordered
original-row pairs, of the pairs whose label sets overlap. -/
theorem claim_C8_multilabel_diffby (inp : MLInput)
    (hlen : inp.cells.length = inp.labels.length)
    (hrow : ∀ r ∈ inp.cells, r.length = inp.cols.length)
    (hml : inp.mlCol ∈ inp.cols) :
    (∀ sameby diffby res, inp.mlCol ∈ diffby →
      mlGetAllPairs inp sameby diffby = .ok res →
      ∀ kv ∈ res, ∀ q ∈ kv.2, ∀ l, l ∈ labelsOf inp q.1 → l ∉ labelsOf inp q.2) ∧
    (∀ sameby, samebyEmpty sameby = true →
      mlGetAllPairs inp sameby [inp.mlCol] =
        .ok [(PKey.na, (combos2 (List.range inp.size)).filter
          (fun q => !labelsOverlap inp q.1 q.2))]) := by
  constructor
  · intro sameby diffby res hdiff h kv hkv q hq l hl1 hl2
    have hov : labelsOverlap inp q.1 q.2 = true :=
      List.any_eq_true.2 ⟨l, hl1, decide_eq_true hl2⟩
    simp only [mlGetAllPairs] at h
    split at h
    · split at h
      · rw [mlOnlyDiffbyMulti_eq inp hml] at h
        injection h with h2
        subst h2
        rcases List.mem_singleton.1 hkv with rfl
        have hqc := List.mem_filter.1 hq
        have hlt : q.1 < q.2 := combos2_pairwise (List.pairwise_lt_range _) hqc.1
        have hsz : q.2 < inp.size := List.mem_range.1 (combos2_mem hqc.1).2
        have hmem : q ∈ psetOf inp := by
          have hb := psetOf_bwd inp hlen hrow hml q.1 q.2 hlt hsz hov
          simpa using hb
        exact of_decide_eq_true hqc.2 hmem
      · rw [decide_eq_true hdiff] at h
        rw [mlGeneral] at h
        split at h
        · cases h
        · rename_i prs hprs
          have hd := mlMapValues_true_disjoint inp prs res h kv hkv q hq
          rw [hd] at hov
          cases hov
    · rename_i hcond
      exact absurd hdiff hcond
  · intro sameby hse
    simp only [mlGetAllPairs]
    split
    · split
      · rw [mlOnlyDiffbyMulti_eq inp hml]
        have hfe : (combos2 (List.range inp.size)).filter
            (fun q => decide (q ∉ psetOf inp)) =
            (combos2 (List.range inp.size)).filter
              (fun q => !labelsOverlap inp q.1 q.2) := by
          apply List.filter_congr
          intro q hqc
          show decide (q ∉ psetOf inp) = !labelsOverlap inp q.1 q.2
          have hlt : q.1 < q.2 := combos2_pairwise (List.pairwise_lt_range _) hqc
          have hsz : q.2 < inp.size := List.mem_range.1 (combos2_mem hqc).2
          cases hov : labelsOverlap inp q.1 q.2 with
          | true =>
            have hmem : q ∈ psetOf inp := by
              have hb := psetOf_bwd inp hlen hrow hml q.1 q.2 hlt hsz hov
              simpa using hb
            simp [hmem]
          | false =>
            have hnm : q ∉ psetOf inp := by
              intro hmem
              rcases psetOf_fwd inp hlen hrow hml q hmem with ⟨_, _, hov'⟩
              rw [hov] at hov'
              cases hov'
            simp [hnm]
        rw [hfe]
      · rename_i hcond2
        exact absurd (by simp [hse]) hcond2
    · rename_i hcond
      exact absurd (List.mem_singleton.2 rfl) hcond

/-- Witness for C8 on Scenario E: the hypotheses hold and the special
branch returns the complement of the overlapping pairs. -/
theorem claim_C8_multilabel_diffby_witness :
    scenE.cells.length = scenE.labels.length ∧
    (∀ r ∈ scenE.cells, r.length = scenE.cols.length) ∧
    scenE.mlCol ∈ scenE.cols ∧
    mlGetAllPairs scenE (ColSpec.list []) [scenE.mlCol] =
      .ok [(PKey.na, (combos2 (List.range scenE.size)).filter
        (fun q => !labelsOverlap scenE q.1 q.2))] :=
  ⟨by decide, by decide, by decide,
    (claim_C8_multilabel_diffby scenE (by decide) (by decide) (by decide)).2
      (ColSpec.list []) (by decide)⟩

end Copairs
